import Mathlib

/-!
Verification of the molecule-detector backend (`src/backend/server.py` and
`src/server.py`) against its natural-language specification.

The development shallowly embeds the image-normalization pipeline
(`preprocess_image`), Otsu thresholding (`_otsu_threshold`), the recognition
adapter (`recognize_molecule_with_osra`) and the temporary-file handling of
the request handler (`analyze_molecule`).

Numeric conventions:
* Python integers are embedded as `Nat`/`Int`.
* Python IEEE-754 double arithmetic, where its rounding is load-bearing
  (the resize-scale computations of step 9, the mean computations of
  steps 3 and 5, and the variance scores of Otsu's scan), is embedded
  exactly: a nonnegative double is a dyadic rational `n / 2 ^ e` with a
  53-bit mantissa, and the round-to-nearest, ties-to-even rounding of
  divisions, subtractions, products and int-to-float conversions is
  carried out in exact natural-number arithmetic.
* The exact (infinite-precision) rational value of Otsu's between-class
  variance formula is kept alongside (`otsuVar`) to compare the program's
  double-precision scores against the idealized real semantics.
-/

namespace MoleculeDetector

set_option maxRecDepth 8192

/-! ## Exact embedding of IEEE-754 double rounding

`roundNE a b` is the integer nearest to `a / b`, ties to even.
`findLeastAux` is a fuel-driven search for the least natural satisfying a
decidable predicate; the fuel is always chosen large enough (lemmas below
characterize the result). -/

def roundNE (a b : ℕ) : ℕ :=
  if 2 * (a % b) < b then a / b
  else if b < 2 * (a % b) then a / b + 1
  else if (a / b) % 2 = 0 then a / b else a / b + 1

def findLeastAux (p : ℕ → Bool) : ℕ → ℕ → ℕ
  | 0, acc => acc
  | fuel + 1, acc => if p acc then acc else findLeastAux p fuel (acc + 1)

def findLeast (p : ℕ → Bool) (fuel : ℕ) : ℕ :=
  findLeastAux p fuel 0

/-- The mantissa/exponent pair `(A, t)` representing the IEEE double nearest
to `N / m` (value `A / 2 ^ t`): `t` is the least shift making the quotient at
least `2 ^ 52`, and `A` is the correctly rounded 53-bit mantissa.  This is the
exact value of the Python expressions `400 / min_dim`, `1500 / max_dim` and
`sum / count` (for `N < 2 ^ 52 * m`, which holds in all uses). -/
def divRound (N m : ℕ) : ℕ × ℕ :=
  let t := findLeast (fun t => 2 ^ 52 * m ≤ N * 2 ^ t) (53 + m)
  (roundNE (N * 2 ^ t) m, t)

/-- Round the exact integer `p` to 53 significant bits (nearest, ties to
even), returning `(B, d)` with value `B * 2 ^ d`: `d` is the number of
dropped low bits. -/
def round53 (p : ℕ) : ℕ × ℕ :=
  let d := findLeast (fun d => p < 2 ^ 53 * 2 ^ d) p
  (roundNE p (2 ^ d), d)

/-- Exact value of the Python expression `int(w * s)` where `s` is the
double `A / 2 ^ t`: the product is rounded to a double (53 significant
bits), then truncated toward zero (our values are nonnegative, so this is
the floor). -/
def mul53floor (w A t : ℕ) : ℕ :=
  let p := w * A
  let Bd := round53 p
  Bd.1 * 2 ^ Bd.2 / 2 ^ t

/-! ## Dyadic embedding of the double operations of `_otsu_threshold`

A nonnegative double is represented as a pair `(n, e) : ℕ × ℕ` of value
`n / 2 ^ e` (`dyValue`), with `n` a 53-bit mantissa times a power of two.
`flDiv` is the correctly rounded quotient of two Python ints (`/`),
`flSub` the correctly rounded difference of two doubles, `flMul` the
correctly rounded product, `intFloat` the conversion of a Python int to a
double (also round-to-nearest, ties-to-even), and `flLt` the exact
comparison of two doubles (IEEE comparison is exact on values). -/

def flDiv (a b : ℕ) : ℕ × ℕ :=
  if a = 0 then (0, 0) else divRound a b

/-- Correctly rounded difference of the doubles `x - y` (for `x ≥ y`; the
code forms `mean_bg - mean_fg`, which is `≤ 0` at every scored threshold,
and squares it — since IEEE rounding commutes with negation, the square of
`fl(mean_bg - mean_fg)` equals the square of `fl(mean_fg - mean_bg)`,
which is the value embedded here). -/
def flSub (x y : ℕ × ℕ) : ℕ × ℕ :=
  let num := x.1 * 2 ^ y.2 - y.1 * 2 ^ x.2
  if num = 0 then (0, 0)
  else ((round53 num).1 * 2 ^ (round53 num).2, x.2 + y.2)

def flMul (x y : ℕ × ℕ) : ℕ × ℕ :=
  let p := x.1 * y.1
  if p = 0 then (0, 0)
  else ((round53 p).1 * 2 ^ (round53 p).2, x.2 + y.2)

def intFloat (P : ℕ) : ℕ × ℕ :=
  if P = 0 then (0, 0) else ((round53 P).1 * 2 ^ (round53 P).2, 0)

def flLt (x y : ℕ × ℕ) : Bool :=
  decide (x.1 * 2 ^ y.2 < y.1 * 2 ^ x.2)

def dyValue (x : ℕ × ℕ) : ℚ := (x.1 : ℚ) / 2 ^ x.2

/-! ## Steps 8 and 9 of `preprocess_image`, on image sizes

Step 8 (`src/backend/server.py` lines 171-178): crop a 3-pixel border when
both dimensions exceed `2 * 3 + 10`, then add a 15-pixel border on all
sides.  Step 9 (lines 180-195): upscale when `min_dim < 400` with the
double scale `400 / min_dim`, recompute the max dimension, then downscale
when `max_dim > 1500` with the double scale `1500 / max_dim`; new sizes go
through Python's `int(...)` truncation, embedded exactly by `mul53floor`. -/
def step8dims (w h : ℕ) : ℕ × ℕ :=
  if 2 * 3 + 10 < w ∧ 2 * 3 + 10 < h then
    ((w - 3 - 3) + 2 * 15, (h - 3 - 3) + 2 * 15)
  else (w + 2 * 15, h + 2 * 15)

def upscalePhase (w h : ℕ) : ℕ × ℕ :=
  if min w h < 400 then
    (mul53floor w (divRound 400 (min w h)).1 (divRound 400 (min w h)).2,
     mul53floor h (divRound 400 (min w h)).1 (divRound 400 (min w h)).2)
  else (w, h)

def downscalePhase (w h : ℕ) : ℕ × ℕ :=
  if 1500 < max w h then
    (mul53floor w (divRound 1500 (max w h)).1 (divRound 1500 (max w h)).2,
     mul53floor h (divRound 1500 (max w h)).1 (divRound 1500 (max w h)).2)
  else (w, h)

def step9dims (w h : ℕ) : ℕ × ℕ :=
  downscalePhase (upscalePhase w h).1 (upscalePhase w h).2

/-! ## The raster-image data model

A `Px` is one pixel in one of the four color modes handled by the code
(`RGB`, `RGBA`, palette-indexed `P`, single-channel luminance `L`); an
`Img` carries the mode, the size metadata `w`/`h`, the palette (used only
by `P` images) and the pixel grid as a list of rows. -/
inductive Mode
  | RGB | RGBA | P | L
deriving DecidableEq

inductive Px
  | rgb (r g b : ℕ)
  | rgba (r g b a : ℕ)
  | pal (i : ℕ)
  | lum (v : ℕ)
deriving DecidableEq

structure Img where
  mode : Mode
  w : ℕ
  h : ℕ
  palette : List (ℕ × ℕ × ℕ × ℕ)
  rows : List (List Px)
deriving DecidableEq

/-- Integer blend helper of the imaging library paste operation
(`(a * b + 128 + ((a * b + 128) >> 8)) >> 8`, an exact division by 255
for byte operands). -/
def muldiv255 (a b : ℕ) : ℕ :=
  (a * b + 128 + (a * b + 128) / 256) / 256

/-- Composite one pixel onto an opaque white background using its alpha
channel as the blend mask (step 1 pastes the image onto white with
`mask=image.split()[3]`), then drop alpha (`convert('RGB')`). -/
def pasteOnWhite (r g b a : ℕ) : Px :=
  .rgb (muldiv255 255 (255 - a) + muldiv255 r a)
       (muldiv255 255 (255 - a) + muldiv255 g a)
       (muldiv255 255 (255 - a) + muldiv255 b a)

/-- Palette lookup for `P` mode pixels (conversion to `RGBA`). -/
def palLookup (palette : List (ℕ × ℕ × ℕ × ℕ)) (i : ℕ) : ℕ × ℕ × ℕ × ℕ :=
  palette.getD i (0, 0, 0, 255)

def mapPx (f : Px → Px) (img : Img) : Img :=
  { img with rows := img.rows.map (List.map f) }

/-- Step 1 of `preprocess_image`: flatten transparency onto a white
background for `RGBA` and palette (`P`) inputs, otherwise coerce to
`RGB`. -/
def step1flatten (img : Img) : Img :=
  match img.mode with
  | .RGBA =>
    { mapPx (fun px =>
        match px with
        | .rgba r g b a => pasteOnWhite r g b a
        | other => other) img with mode := .RGB }
  | .P =>
    { mapPx (fun px =>
        match px with
        | .pal i =>
          match palLookup img.palette i with
          | (r, g, b, a) => pasteOnWhite r g b a
        | other => other) img with mode := .RGB }
  | .RGB => img
  | .L =>
    { mapPx (fun px =>
        match px with
        | .lum v => .rgb v v v
        | other => other) img with mode := .RGB }

/-- The fixed-point luminance formula of the imaging library
(`L = (R * 19595 + G * 38470 + B * 7471 + 0x8000) >> 16`). -/
def lumOf (r g b : ℕ) : ℕ :=
  (r * 19595 + g * 38470 + b * 7471 + 32768) / 65536

/-- Step 2: `image.convert('L')`. -/
def convertL (img : Img) : Img :=
  { mapPx (fun px =>
      match px with
      | .rgb r g b => .lum (lumOf r g b)
      | .rgba r g b _ => .lum (lumOf r g b)
      | .pal i =>
        match palLookup img.palette i with
        | (r, g, b, _) => .lum (lumOf r g b)
      | .lum v => .lum v) img with mode := .L }

/-- The luminance values of all pixels, row-major (the data the library
histogram and statistics are computed from). -/
def lumVals (img : Img) : List ℕ :=
  img.rows.flatten.filterMap (fun px =>
    match px with
    | .lum v => some v
    | _ => none)

/-- The 256-bucket histogram of an `L` image: `histogram img v` counts the
pixels of luminance `v` (`image.histogram()`). -/
def histogram (img : Img) (v : ℕ) : ℕ :=
  (lumVals img).count v

/-- Sum of the luminances (`ImageStat.Stat(image).sum[0]`). -/
def lumSum (img : Img) : ℕ := (lumVals img).sum

/-- Pixel count as seen by `ImageStat` (`count[0]`, the histogram total). -/
def lumCount (img : Img) : ℕ := (lumVals img).length

/-- The comparison `ImageStat.Stat(image).mean[0] < 128` of step 3, with
the mean formed by the exactly-rounded double division `sum / count`
(comparison against the exactly representable 128 is then exact on the
dyadic mantissa). -/
def meanLt128 (S C : ℕ) : Bool :=
  if S = 0 then true
  else decide ((divRound S C).1 < 128 * 2 ^ (divRound S C).2)

/-- Step 3: invert every pixel when the mean luminance is below 128
(`ImageOps.invert` maps `v` to `255 - v`). -/
def step3invert (img : Img) : Img :=
  if meanLt128 (lumSum img) (lumCount img) then
    mapPx (fun px =>
      match px with
      | .lum v => .lum (255 - v)
      | other => other) img
  else img

/-- Step 4: `image.point(lambda p: 255 if p > 160 else p, mode='L')`. -/
def step4lightSuppress (img : Img) : Img :=
  { mapPx (fun px =>
      match px with
      | .lum v => .lum (if 160 < v then 255 else v)
      | other => other) img with mode := .L }

/-- The rounded mean `int(ImageStat.Stat(image.convert('L')).mean[0] + 0.5)`
computed by the library contrast enhancer, with both the division
`sum / count` and the addition `+ 0.5` carried out in exactly-rounded
double arithmetic before the final truncation. -/
def contrastMean (S C : ℕ) : ℕ :=
  if S = 0 then 0
  else
    let At := divRound S C
    let P := 2 * At.1 + 2 ^ At.2
    let Bd := round53 P
    Bd.1 * 2 ^ Bd.2 / 2 ^ (At.2 + 1)

/-- One pixel of `Image.blend(degenerate, image, 1.5)` with `degenerate`
the constant-`mean` image: the extrapolation branch of the library blend
computes `mean + 1.5 * (v - mean)` in single-precision float (exact for
these operands, a half-integer: `c2` below is twice the value), clips to
`[0, 255]` and truncates to a byte. -/
def blendPx (mean v : ℕ) : ℕ :=
  let c2 : ℤ := 2 * (mean : ℤ) + 3 * ((v : ℤ) - (mean : ℤ))
  if c2 ≤ 0 then 0
  else if 2 * 255 ≤ c2 then 255
  else (c2 / 2).toNat

/-- Step 5: `ImageEnhance.Contrast(image).enhance(1.5)`. -/
def step5contrast (img : Img) : Img :=
  mapPx (fun px =>
    match px with
    | .lum v => .lum (blendPx (contrastMean (lumSum img) (lumCount img)) v)
    | other => other) img

/-- The scan of `_otsu_threshold` (`src/backend/server.py` lines 82-101):
for each `t` accumulate `weight_bg` and `sum_bg`, skip while `weight_bg`
is zero, stop when `weight_fg` reaches zero, score
`weight_bg * weight_fg * (mean_bg - mean_fg) ** 2` and keep the first
strictly-greater threshold.  Every float operation of the means and the
score is embedded by the exact dyadic operations above: the two true
divisions round once each, `mean_bg - mean_fg` rounds once (embedded as
the absolute difference, whose square is the same double), `** 2` is the
correctly rounded square, and the Python int `weight_bg * weight_fg` is
converted to a double before the final rounded product, exactly as
CPython evaluates `weight_bg * weight_fg * (mean_bg - mean_fg) ** 2`. -/
def otsuGo (hist : ℕ → ℕ) (total totalSum : ℕ) :
    List ℕ → ℕ → ℕ → ℕ → ℕ × ℕ → ℕ
  | [], _, _, bestT, _ => bestT
  | t :: ts, wBg, sumBg, bestT, bestVar =>
    let wBg' := wBg + hist t
    if wBg' = 0 then otsuGo hist total totalSum ts wBg' sumBg bestT bestVar
    else if total - wBg' = 0 then bestT
    else
      let sumBg' := sumBg + t * hist t
      let wFg := total - wBg'
      let meanBg := flDiv sumBg' wBg'
      let meanFg := flDiv (totalSum - sumBg') wFg
      let diff := flSub meanFg meanBg
      let variance := flMul (intFloat (wBg' * wFg)) (flMul diff diff)
      if flLt bestVar variance then otsuGo hist total totalSum ts wBg' sumBg' t variance
      else otsuGo hist total totalSum ts wBg' sumBg' bestT bestVar

/-- `_otsu_threshold(image)`: `total_pixels` is `size[0] * size[1]`,
`total_sum` is `sum(i * histogram[i] for i in range(256))`, the scan starts
from `best_threshold = 128`, `best_variance = 0`. -/
def otsuThreshold (img : Img) : ℕ :=
  otsuGo (histogram img) (img.w * img.h)
    (((List.range 256).map (fun i => i * histogram img i)).sum)
    (List.range 256) 0 0 128 (0, 0)

/-- Step 6: threshold at the Otsu value
(`image.point(lambda p: 255 if p > threshold else 0, mode='L')`). -/
def step6binarize (img : Img) : Img :=
  { mapPx (fun px =>
      match px with
      | .lum v => .lum (if otsuThreshold img < v then 255 else 0)
      | other => other) img with mode := .L }

/-- Luminance at clamped coordinates (used by the median filter; the
library pads the image by replicating its edge before rank filtering,
which is index clamping). -/
def lumAt (img : Img) (x y : ℕ) : ℕ :=
  match (img.rows.getD y []).getD x (.lum 0) with
  | .lum v => v
  | _ => 0

def insertSorted (x : ℕ) : List ℕ → List ℕ
  | [] => [x]
  | y :: ys => if x ≤ y then x :: y :: ys else y :: insertSorted x ys

def sortAsc (l : List ℕ) : List ℕ := l.foldr insertSorted []

/-- Median of the 3 x 3 neighborhood (rank `9 // 2 = 4` of the sorted
window, as in `MedianFilter(size=3)`). -/
def median9 (l : List ℕ) : ℕ := (sortAsc l).getD 4 0

/-- Step 7: `image.filter(ImageFilter.MedianFilter(size=3))`; border pixels
use the edge-replicated (clamped) neighborhood. -/
def step7median (img : Img) : Img :=
  { img with rows :=
      (List.range img.h).map (fun y =>
        (List.range img.w).map (fun x =>
          Px.lum (median9
            ([y - 1, y, min (y + 1) (img.h - 1)].flatMap (fun b =>
              [x - 1, x, min (x + 1) (img.w - 1)].map (fun a =>
                lumAt img a b)))))) }

/-- Step 8: crop 3 pixels from every edge when both dimensions exceed
`2 * 3 + 10` (`image.crop((3, 3, w - 3, h - 3))`), then add a 15-pixel
white border (`ImageOps.expand(image, border=15, fill=255)`). -/
def crop3 (img : Img) : Img :=
  { img with
    w := img.w - 3 - 3
    h := img.h - 3 - 3
    rows := ((img.rows.drop 3).take (img.h - 3 - 3)).map
      (fun r => (r.drop 3).take (img.w - 3 - 3)) }

def expand15 (img : Img) : Img :=
  { img with
    w := img.w + 2 * 15
    h := img.h + 2 * 15
    rows :=
      List.replicate 15 (List.replicate (img.w + 2 * 15) (Px.lum 255)) ++
      img.rows.map (fun r =>
        List.replicate 15 (Px.lum 255) ++ r ++ List.replicate 15 (Px.lum 255)) ++
      List.replicate 15 (List.replicate (img.w + 2 * 15) (Px.lum 255)) }

def step8cropPad (img : Img) : Img :=
  expand15 (if 2 * 3 + 10 < img.w ∧ 2 * 3 + 10 < img.h then crop3 img else img)

/-- Modelled from the spec: step 9 resizes "using a high-quality
resampling filter"; the resampling kernel itself lives in the imaging
library, outside this repository.  The output size and mode (all the
claims rely on) follow the code exactly; the pixel content of a resized
image is modelled as proportional point sampling. -/
def resampleTo (img : Img) (w' h' : ℕ) : Img :=
  { img with
    w := w'
    h := h'
    rows := (List.range h').map (fun y =>
      (List.range w').map (fun x =>
        (img.rows.getD (y * img.h / h') []).getD (x * img.w / w') (Px.lum 0))) }

/-- Step 9 on images: the new sizes are the exactly-embedded
`int(w * scale)` values of `step9dims`. -/
def step9resize (img : Img) : Img :=
  let img1 :=
    if min img.w img.h < 400 then
      resampleTo img (upscalePhase img.w img.h).1 (upscalePhase img.w img.h).2
    else img
  if 1500 < max img1.w img1.h then
    resampleTo img1 (downscalePhase img1.w img1.h).1 (downscalePhase img1.w img1.h).2
  else img1

namespace Backend

/-- The full nine-step pipeline `preprocess_image` of
`src/backend/server.py`. -/
def preprocess_image (img : Img) : Img :=
  step9resize (step8cropPad (step7median (step6binarize (step5contrast
    (step4lightSuppress (step3invert (convertL (step1flatten img))))))))

end Backend

namespace Minimal

/-- The minimal pass-through `preprocess_image` of `src/server.py`:
convert to `RGB` when needed, otherwise return the image unchanged. -/
def preprocess_image (img : Img) : Img :=
  if img.mode ≠ .RGB then
    { mapPx (fun px =>
        match px with
        | .rgba r g b _ => .rgb r g b
        | .pal i =>
          match palLookup img.palette i with
          | (r, g, b, _) => .rgb r g b
        | .lum v => .rgb v v v
        | other => other) img with mode := .RGB }
  else img

end Minimal

/-! ## Specification vocabulary for Otsu's threshold

`cumHist hist k` is the mass of luminances below `k` (so the background
class of candidate threshold `t` has weight `cumHist hist (t + 1)`),
`csumHist hist k` the corresponding weighted mass, `isCand` says a
threshold splits the pixels into two non-empty classes, and `otsuVar` is
the between-class variance the scan scores. -/
def cumHist (hist : ℕ → ℕ) (k : ℕ) : ℕ := ((List.range k).map hist).sum

def csumHist (hist : ℕ → ℕ) (k : ℕ) : ℕ :=
  ((List.range k).map (fun i => i * hist i)).sum

def isCand (hist : ℕ → ℕ) (total t : ℕ) : Prop :=
  0 < cumHist hist (t + 1) ∧ cumHist hist (t + 1) < total

instance (hist : ℕ → ℕ) (total t : ℕ) : Decidable (isCand hist total t) := by
  unfold isCand
  infer_instance

def otsuVar (hist : ℕ → ℕ) (total t : ℕ) : ℚ :=
  (cumHist hist (t + 1) : ℚ) * ((total - cumHist hist (t + 1) : ℕ) : ℚ) *
    ((csumHist hist (t + 1) : ℚ) / (cumHist hist (t + 1) : ℚ) -
      ((csumHist hist 256 : ℚ) - (csumHist hist (t + 1) : ℚ)) /
        ((total - cumHist hist (t + 1) : ℕ) : ℚ)) ^ 2

/-- The double-precision score the scan computes at candidate threshold
`t`, as a dyadic pair: exactly the `variance` value of the loop body at
that iteration, expressed through the prefix sums of the histogram. -/
def floatVarDy (hist : ℕ → ℕ) (total t : ℕ) : ℕ × ℕ :=
  let wBg' := cumHist hist (t + 1)
  let sumBg' := csumHist hist (t + 1)
  let wFg := total - wBg'
  let meanBg := flDiv sumBg' wBg'
  let meanFg := flDiv (csumHist hist 256 - sumBg') wFg
  let diff := flSub meanFg meanBg
  flMul (intFloat (wBg' * wFg)) (flMul diff diff)

/-- The value of the double-precision score at candidate threshold `t`. -/
def floatOtsuVar (hist : ℕ → ℕ) (total t : ℕ) : ℚ :=
  dyValue (floatVarDy hist total t)

/-- What `_otsu_threshold` must return: 128 when no threshold splits the
pixels into two non-empty classes, and otherwise the least candidate
threshold attaining the maximum of the double-precision variance scores
the code compares. -/
def otsuResultSpec (hist : ℕ → ℕ) (total r : ℕ) : Prop :=
  ((∀ t, t < 256 → ¬ isCand hist total t) ∧ r = 128) ∨
    (isCand hist total r ∧ r < 256 ∧
      (∀ t, t < 256 → isCand hist total t →
        floatOtsuVar hist total t ≤ floatOtsuVar hist total r) ∧
      (∀ t, t < r → isCand hist total t →
        floatOtsuVar hist total t < floatOtsuVar hist total r))

/-- Loop invariant of the scan after the thresholds below `k` have been
processed. -/
def otsuInv (hist : ℕ → ℕ) (total k bestT : ℕ) (bestVar : ℕ × ℕ) : Prop :=
  ((∀ t, t < k → ¬ isCand hist total t) ∧ bestT = 128 ∧ bestVar = (0, 0)) ∨
    (isCand hist total bestT ∧ bestT < k ∧
      bestVar = floatVarDy hist total bestT ∧
      (∀ t, t < k → isCand hist total t →
        floatOtsuVar hist total t ≤ floatOtsuVar hist total bestT) ∧
      (∀ t, t < bestT → isCand hist total t →
        floatOtsuVar hist total t < floatOtsuVar hist total bestT))

/-- A pixel is a byte-valued luminance sample. -/
def isByteLum (px : Px) : Prop :=
  match px with
  | Px.lum v => v < 256
  | _ => False

instance : DecidablePred isByteLum := fun px => by
  cases px <;> simp only [isByteLum] <;> infer_instance

/-- Well-formedness of a single-channel image: the row grid matches the
size metadata and every pixel is a byte-valued luminance sample. -/
def LWf (img : Img) : Prop :=
  img.rows.length = img.h ∧ (∀ r ∈ img.rows, r.length = img.w) ∧
    ∀ px ∈ img.rows.flatten, isByteLum px

instance (img : Img) : Decidable (LWf img) := by
  unfold LWf
  infer_instance

/-! ## The recognition adapter and the handler tail

`recognize_molecule_with_osra` runs the external engine as a subprocess.
The observable outcomes of that call are: a timeout
(`subprocess.TimeoutExpired`), a missing executable (`FileNotFoundError`),
any other exception, or a completed process with a return code, standard
output and standard error. -/
inductive EngineOutcome
  | timeout
  | notFound
  | otherError
  | completed (returncode : ℤ) (stdout stderr : String)

/-- Python `str.strip()`. -/
def pyStrip (s : String) : String := s.trim

/-- Python `str.split()` with no argument: split on whitespace runs,
discarding empty tokens. -/
def pySplit (s : String) : List String :=
  (s.split Char.isWhitespace).filter (fun t => t ≠ "")

/-- `recognize_molecule_with_osra` (`src/backend/server.py` lines 19-62):
on a zero exit status with non-empty stripped output, return the first
whitespace-delimited token; in every other case (non-zero exit, empty
output, timeout, missing engine, any other error) print to the log and
return `None`. -/
def recognize_molecule_with_osra (o : EngineOutcome) : Option String :=
  match o with
  | .completed rc out _ =>
    if rc = 0 then
      let smiles := pyStrip out
      if smiles ≠ "" then
        match pySplit smiles with
        | p :: _ => some p
        | [] => none
      else none
    else none
  | _ => none

/-- The JSON-and-status shape of a handler response. -/
structure Resp where
  status : ℕ
  success : Option Bool
  smiles : Option String
  error : Option String
deriving DecidableEq

def successResp (s : String) : Resp := ⟨200, some true, some s, none⟩

def notRecognizedResp : Resp :=
  ⟨200, some false, none,
    some "Could not recognize molecular structure. Make sure the image contains a clear chemical structure diagram."⟩

def serverErrorResp (msg : String) : Resp := ⟨500, none, none, some msg⟩

/-- What reaches the handler from the recognition call: either the engine
invocation ran to one of its outcomes (the function then returns a value,
since it catches every ordinary exception), or an exception escaped the
call. -/
inductive RecOutcome
  | engine (o : EngineOutcome)
  | escaped (msg : String)

/-- The `finally` block: `if os.path.exists(temp_path): os.unlink(temp_path)`.
The filesystem is modelled as the set of existing paths. -/
def cleanupTemp (fs : Finset String) (p : String) : Finset String :=
  if p ∈ fs then fs.erase p else fs

/-- The handler tail of `analyze_molecule` (lines 217-241), entered once
the temporary artifact exists and the recognition call is made: the
`try` body maps the recognition value to a 200 response (`success: true`
with the SMILES, or `success: false` with an error string); the `finally`
block deletes the temporary file on every exit path; the outer `except`
turns an escaped exception into a 500 response after the `finally` ran. -/
def analyze_molecule_tail (r : RecOutcome) (fs : Finset String)
    (tempPath : String) : Resp × Finset String :=
  match r with
  | .engine o =>
    (match recognize_molecule_with_osra o with
      | some s => successResp s
      | none => notRecognizedResp,
     cleanupTemp fs tempPath)
  | .escaped msg => (serverErrorResp msg, cleanupTemp fs tempPath)

set_option maxRecDepth 4000 in

/-! ## Theorems -/

/-! Basic facts about the searches and the rounding. -/
theorem findLeastAux_spec (p : ℕ → Bool) :
    ∀ (fuel acc : ℕ), (∃ i, i < fuel ∧ p (acc + i)) →
      (p (findLeastAux p fuel acc) ∧
        findLeastAux p fuel acc < acc + fuel ∧
        acc ≤ findLeastAux p fuel acc ∧
        ∀ j, acc ≤ j → j < findLeastAux p fuel acc → ¬ p j) := by
  intro fuel
  induction fuel with
  | zero => intro acc ⟨i, hi, _⟩; omega
  | succ n ih =>
    intro acc ⟨i, hi, hpi⟩
    by_cases hacc : p acc
    · have hres : findLeastAux p (n + 1) acc = acc := by
        simp [findLeastAux, hacc]
      rw [hres]
      exact ⟨hacc, by omega, le_refl _, fun j h1 h2 => by omega⟩
    · have hres : findLeastAux p (n + 1) acc = findLeastAux p n (acc + 1) := by
        simp [findLeastAux, hacc]
      rw [hres]
      have hex : ∃ i, i < n ∧ p (acc + 1 + i) := by
        rcases i with _ | i'
        · simp at hpi; exact absurd hpi hacc
        · exact ⟨i', by omega, by
            have : acc + 1 + i' = acc + (i' + 1) := by omega
            rw [this]; exact hpi⟩
      obtain ⟨h1, h2, h3, h4⟩ := ih (acc + 1) hex
      refine ⟨h1, by omega, by omega, fun j hj1 hj2 => ?_⟩
      by_cases hje : j = acc
      · rw [hje]; exact hacc
      · exact h4 j (by omega) hj2

theorem findLeast_spec (p : ℕ → Bool) (fuel : ℕ) (h : ∃ i, i < fuel ∧ p i) :
    p (findLeast p fuel) ∧ (∀ j, j < findLeast p fuel → ¬ p j) := by
  have := findLeastAux_spec p fuel 0 (by simpa using h)
  exact ⟨this.1, fun j hj => this.2.2.2 j (Nat.zero_le j) hj⟩

theorem roundNE_le (a b : ℕ) (hb : 0 < b) : 2 * (roundNE a b) * b ≤ 2 * a + b := by
  unfold roundNE
  have hdiv := Nat.div_add_mod a b
  have hlt := Nat.mod_lt a hb
  split
  · nlinarith [Nat.div_mul_le_self a b]
  · split
    · nlinarith [Nat.div_mul_le_self a b]
    · split
      · nlinarith [Nat.div_mul_le_self a b]
      · nlinarith [Nat.div_mul_le_self a b]

theorem roundNE_ge (a b : ℕ) (hb : 0 < b) : 2 * a ≤ 2 * (roundNE a b) * b + b := by
  unfold roundNE
  have hdiv := Nat.div_add_mod a b
  have hlt := Nat.mod_lt a hb
  split
  · nlinarith
  · split
    · nlinarith
    · split
      · nlinarith
      · nlinarith

theorem roundNE_mono_num (a a' b : ℕ) (h : a ≤ a') :
    roundNE a b ≤ roundNE a' b := by
  rcases Nat.eq_zero_or_pos b with hb | hb
  · subst hb; simp only [roundNE, Nat.mod_zero, Nat.div_zero]
    repeat' split
    all_goals omega
  have hd : a / b ≤ a' / b := Nat.div_le_div_right h
  unfold roundNE
  rcases Nat.lt_or_ge (a / b) (a' / b) with hlt | hge
  · repeat' split
    all_goals omega
  · have heq : a / b = a' / b := by omega
    have hm : a % b ≤ a' % b := by
      have h1 := Nat.div_add_mod a b
      have h2 := Nat.div_add_mod a' b
      rw [heq] at h1
      omega
    rw [heq]
    repeat' split
    all_goals omega

theorem divRound_spec (N m : ℕ) (hm : 1 ≤ m) (hN : 1 ≤ N) (hsmall : N < 2 ^ 52 * m) :
    2 ^ 52 * m ≤ N * 2 ^ (divRound N m).2 ∧
    N * 2 ^ (divRound N m).2 < 2 ^ 53 * m ∧
    2 * (divRound N m).1 * m ≤ 2 * (N * 2 ^ (divRound N m).2) + m ∧
    2 * (N * 2 ^ (divRound N m).2) ≤ 2 * (divRound N m).1 * m + m ∧
    2 ^ 52 ≤ (divRound N m).1 ∧ (divRound N m).1 ≤ 2 ^ 53 ∧
    1 ≤ (divRound N m).2 := by
  have hex : ∃ i, i < 53 + m ∧ (fun t => decide (2 ^ 52 * m ≤ N * 2 ^ t)) i = true := by
    refine ⟨52 + m, by omega, ?_⟩
    simp only [decide_eq_true_eq]
    have h2m : m < 2 ^ m := Nat.lt_two_pow m
    calc 2 ^ 52 * m ≤ 2 ^ 52 * 2 ^ m := by
          exact Nat.mul_le_mul_left _ (le_of_lt h2m)
      _ = 1 * 2 ^ (52 + m) := by rw [pow_add]; ring
      _ ≤ N * 2 ^ (52 + m) := Nat.mul_le_mul_right _ hN
  obtain ⟨hfound, hleast⟩ :=
    findLeast_spec (fun t => decide (2 ^ 52 * m ≤ N * 2 ^ t)) (53 + m) hex
  set t := findLeast (fun t => decide (2 ^ 52 * m ≤ N * 2 ^ t)) (53 + m) with ht
  have h1 : 2 ^ 52 * m ≤ N * 2 ^ t := by simpa using hfound
  have htpos : 1 ≤ t := by
    rcases Nat.eq_zero_or_pos t with h0 | h; swap; · exact h
    exfalso; rw [h0] at h1; simp at h1; omega
  have hmin : N * 2 ^ (t - 1) < 2 ^ 52 * m := by
    have := hleast (t - 1) (by omega)
    simpa using this
  have h2 : N * 2 ^ t < 2 ^ 53 * m := by
    have hsplit : 2 ^ t = 2 * 2 ^ (t - 1) := by
      rw [← pow_succ']
      congr 1
      omega
    rw [hsplit]
    calc N * (2 * 2 ^ (t - 1)) = 2 * (N * 2 ^ (t - 1)) := by ring
      _ < 2 * (2 ^ 52 * m) := by omega
      _ = 2 ^ 53 * m := by ring
  have hA1 := roundNE_le (N * 2 ^ t) m (by omega)
  have hA2 := roundNE_ge (N * 2 ^ t) m (by omega)
  have hAdef : (divRound N m).1 = roundNE (N * 2 ^ t) m := by
    simp [divRound, ht]
  have htdef : (divRound N m).2 = t := by
    simp [divRound, ht]
  rw [hAdef, htdef]
  set A := roundNE (N * 2 ^ t) m with hA
  refine ⟨h1, h2, hA1, hA2, ?_, ?_, htpos⟩
  · -- 2 ^ 52 ≤ A, from 2 * N * 2 ^ t ≤ 2 * A * m + m and 2 ^ 52 * m ≤ N * 2 ^ t
    nlinarith [hA2, h1]
  · -- A ≤ 2 ^ 53, from 2 * A * m ≤ 2 * N * 2 ^ t + m and N * 2 ^ t < 2 ^ 53 * m
    nlinarith [hA1, h2]

theorem round53_spec (p : ℕ) (hp : 1 ≤ p) :
    p < 2 ^ 53 * 2 ^ (round53 p).2 ∧
    ((round53 p).2 = 0 ∨ 2 ^ 52 * 2 ^ (round53 p).2 ≤ p) ∧
    2 * (round53 p).1 * 2 ^ (round53 p).2 ≤ 2 * p + 2 ^ (round53 p).2 ∧
    2 * p ≤ 2 * (round53 p).1 * 2 ^ (round53 p).2 + 2 ^ (round53 p).2 := by
  have hex : ∃ i, i < p ∧ (fun d => decide (p < 2 ^ 53 * 2 ^ d)) i = true := by
    refine ⟨p - 1, by omega, ?_⟩
    simp only [decide_eq_true_eq]
    have h2p : p < 2 ^ p := Nat.lt_two_pow p
    have hsplit : 2 ^ p = 2 * 2 ^ (p - 1) := by
      rw [← pow_succ']
      congr 1
      omega
    calc p < 2 ^ p := h2p
      _ = 2 * 2 ^ (p - 1) := hsplit
      _ ≤ 2 ^ 53 * 2 ^ (p - 1) := by
          exact Nat.mul_le_mul_right _ (by norm_num)
  obtain ⟨hfound, hleast⟩ :=
    findLeast_spec (fun d => decide (p < 2 ^ 53 * 2 ^ d)) p hex
  set d := findLeast (fun d => decide (p < 2 ^ 53 * 2 ^ d)) p with hd
  have h1 : p < 2 ^ 53 * 2 ^ d := by simpa using hfound
  have h2 : d = 0 ∨ 2 ^ 52 * 2 ^ d ≤ p := by
    rcases Nat.eq_zero_or_pos d with h0 | hpos
    · exact Or.inl h0
    · right
      have hm := hleast (d - 1) (by omega)
      simp only [decide_eq_true_eq, not_lt] at hm
      have hsplit : 2 ^ d = 2 * 2 ^ (d - 1) := by
        rw [← pow_succ']
        congr 1
        omega
      calc 2 ^ 52 * 2 ^ d = 2 ^ 53 * 2 ^ (d - 1) := by
            rw [hsplit]; ring
        _ ≤ p := hm
  have hB1 := roundNE_le p (2 ^ d) (Nat.pos_pow_of_pos d (by norm_num))
  have hB2 := roundNE_ge p (2 ^ d) (Nat.pos_pow_of_pos d (by norm_num))
  have hBdef : (round53 p).1 = roundNE p (2 ^ d) := by simp [round53, hd]
  have hddef : (round53 p).2 = d := by simp [round53, hd]
  rw [hBdef, hddef]
  exact ⟨h1, h2, hB1, hB2⟩

/-- Rounding to nearest is the identity on multiples of the divisor. -/
theorem roundNE_exact (a b : ℕ) (hb : 0 < b) (hdvd : b ∣ a) :
    roundNE a b * b = a := by
  obtain ⟨c, rfl⟩ := hdvd
  have h0 : b * c % b = 0 := Nat.mul_mod_right b c
  unfold roundNE
  rw [h0]
  rw [if_pos (by omega)]
  rw [Nat.mul_div_cancel_left c hb]
  ring

/-- A positive integer keeps a positive 53-bit mantissa. -/
theorem round53_pos (p : ℕ) (hp : 1 ≤ p) : 1 ≤ (round53 p).1 := by
  obtain ⟨r1, r2, r3, r4⟩ := round53_spec p hp
  by_contra hB
  push_neg at hB
  have hB0 : (round53 p).1 = 0 := by omega
  rw [hB0] at r4
  simp only [Nat.mul_zero, Nat.zero_mul, Nat.zero_add] at r4
  rcases r2 with h0 | hge
  · rw [h0] at r4
    norm_num at r4
    omega
  · have hd1 : 1 ≤ 2 ^ (round53 p).2 := Nat.pos_pow_of_pos _ (by norm_num)
    linarith [hge, r4, hd1]

/-- Rounding `w * 2 ^ 52` to 53 significant bits is exact when `w` fits in
53 bits: the dropped low bits are all zero. -/
theorem round53_mul52 (w : ℕ) (hw : 1 ≤ w) (hw' : w < 2 ^ 53) :
    (round53 (w * 2 ^ 52)).1 * 2 ^ (round53 (w * 2 ^ 52)).2 = w * 2 ^ 52 := by
  have hp : 1 ≤ w * 2 ^ 52 := Nat.mul_pos hw (by norm_num)
  obtain ⟨r1, r2, _, _⟩ := round53_spec (w * 2 ^ 52) hp
  have hd52 : (round53 (w * 2 ^ 52)).2 ≤ 52 := by
    rcases r2 with h0 | hge
    · omega
    · have h1 : 2 ^ (round53 (w * 2 ^ 52)).2 ≤ w := by
        have h2 : 2 ^ (round53 (w * 2 ^ 52)).2 * 2 ^ 52 ≤ w * 2 ^ 52 := by
          linarith [hge]
        exact Nat.le_of_mul_le_mul_right h2 (by norm_num)
      have h2 : 2 ^ (round53 (w * 2 ^ 52)).2 < 2 ^ 53 := lt_of_le_of_lt h1 hw'
      by_contra hcon
      push_neg at hcon
      have h3 : (2 : ℕ) ^ 53 ≤ 2 ^ (round53 (w * 2 ^ 52)).2 :=
        Nat.pow_le_pow_right (by norm_num) hcon
      omega
  have hdvd : 2 ^ (round53 (w * 2 ^ 52)).2 ∣ w * 2 ^ 52 :=
    Dvd.dvd.mul_left (pow_dvd_pow 2 hd52) w
  have hB : (round53 (w * 2 ^ 52)).1 =
      roundNE (w * 2 ^ 52) (2 ^ (round53 (w * 2 ^ 52)).2) := rfl
  rw [hB]
  exact roundNE_exact (w * 2 ^ 52) _ (Nat.pos_pow_of_pos _ (by norm_num)) hdvd

/-- On a nonzero numerator, `flDiv` is `divRound`. -/
theorem flDiv_eq_divRound (a b : ℕ) (ha : 1 ≤ a) : flDiv a b = divRound a b := by
  unfold flDiv
  rw [if_neg (by omega)]

theorem flDiv_zero_num (b : ℕ) : flDiv 0 b = (0, 0) := by
  unfold flDiv
  rw [if_pos rfl]

/-- The rounded quotient overestimates `a / b` by at most one part in
`2 ^ 53` (stated multiplicatively over the naturals). -/
theorem flDiv_num_le (a b : ℕ) (hb : 1 ≤ b) (ha : 1 ≤ a) (hsm : a < 2 ^ 52 * b) :
    (flDiv a b).1 * 2 ^ 53 * b ≤
      a * 2 ^ (flDiv a b).2 * 2 ^ 53 + a * 2 ^ (flDiv a b).2 := by
  rw [flDiv_eq_divRound a b ha]
  obtain ⟨d1, d2, d3, d4, d5, d6, d7⟩ := divRound_spec a b hb ha hsm
  have d3' := Nat.mul_le_mul_right (2 ^ 52) d3
  linarith [d3', d1]

/-- The rounded quotient underestimates `a / b` by at most one part in
`2 ^ 53` (stated multiplicatively over the naturals). -/
theorem flDiv_num_ge (a b : ℕ) (hb : 1 ≤ b) (ha : 1 ≤ a) (hsm : a < 2 ^ 52 * b) :
    a * 2 ^ (flDiv a b).2 * 2 ^ 53 ≤
      (flDiv a b).1 * 2 ^ 53 * b + a * 2 ^ (flDiv a b).2 := by
  rw [flDiv_eq_divRound a b ha]
  obtain ⟨d1, d2, d3, d4, d5, d6, d7⟩ := divRound_spec a b hb ha hsm
  have d4' := Nat.mul_le_mul_right (2 ^ 52) d4
  linarith [d4', d1]

theorem flDiv_mantissa_ge (a b : ℕ) (hb : 1 ≤ b) (ha : 1 ≤ a)
    (hsm : a < 2 ^ 52 * b) : 2 ^ 52 ≤ (flDiv a b).1 := by
  rw [flDiv_eq_divRound a b ha]
  exact (divRound_spec a b hb ha hsm).2.2.2.2.1

/-- The rounded background mean stays strictly below the rounded foreground
mean at a candidate threshold: the exact means are separated by at least 1
while each single rounding moves a mean by less than one part in `2 ^ 53`. -/
theorem flDiv_gap (sB wB sF wF t : ℕ) (hwB : 1 ≤ wB) (hwF : 1 ≤ wF)
    (ht : t ≤ 255) (hsB : sB ≤ t * wB) (hsF : (t + 1) * wF ≤ sF)
    (hsF' : sF ≤ 255 * wF) :
    (flDiv sB wB).1 * 2 ^ (flDiv sF wF).2 <
      (flDiv sF wF).1 * 2 ^ (flDiv sB wB).2 := by
  have h11 : 1 * 1 ≤ (t + 1) * wF := Nat.mul_le_mul (by omega) hwF
  have hsF1 : 1 ≤ sF := by linarith [h11, hsF]
  have hsmF : sF < 2 ^ 52 * wF := by linarith [hsF', hwF]
  have hYge := flDiv_num_ge sF wF hwF hsF1 hsmF
  set Y := (flDiv sF wF).1 with hY
  set Q := (2 : ℕ) ^ (flDiv sF wF).2 with hQ
  have hQ1 : 0 < Q := Nat.pos_pow_of_pos _ (by norm_num)
  have h8 : ((t + 1) * Q * 2 ^ 53) * wF ≤ (Y * 2 ^ 53 + 255 * Q) * wF := by
    have h6 := Nat.mul_le_mul_right (Q * 2 ^ 53) hsF
    have h7 := Nat.mul_le_mul_right Q hsF'
    linarith [hYge, h6, h7]
  have h9 : (t + 1) * Q * 2 ^ 53 ≤ Y * 2 ^ 53 + 255 * Q :=
    Nat.le_of_mul_le_mul_right h8 (by omega)
  by_cases hsB0 : sB = 0
  · subst hsB0
    rw [flDiv_zero_num]
    have hY52 := flDiv_mantissa_ge sF wF hwF hsF1 hsmF
    rw [← hY] at hY52
    have hYpos : 0 < Y := lt_of_lt_of_le (by norm_num) hY52
    simpa using hYpos
  · have hsB1 : 1 ≤ sB := by omega
    have htwB := Nat.mul_le_mul_right wB ht
    have hsmB : sB < 2 ^ 52 * wB := by linarith [hsB, htwB, hwB]
    have hXle := flDiv_num_le sB wB hwB hsB1 hsmB
    set X := (flDiv sB wB).1 with hX
    set P := (2 : ℕ) ^ (flDiv sB wB).2 with hP
    have hP1 : 0 < P := Nat.pos_pow_of_pos _ (by norm_num)
    have h3 : (X * 2 ^ 53) * wB ≤ (t * P * 2 ^ 53 + t * P) * wB := by
      have h2 := Nat.mul_le_mul_right (P * 2 ^ 53) hsB
      have h2' := Nat.mul_le_mul_right P hsB
      linarith [hXle, h2, h2']
    have h4 : X * 2 ^ 53 ≤ t * P * 2 ^ 53 + t * P :=
      Nat.le_of_mul_le_mul_right h3 (by omega)
    have h4Q := Nat.mul_le_mul_right Q h4
    have h9P := Nat.mul_le_mul_right P h9
    have hPQ : 0 < P * Q := Nat.mul_pos hP1 hQ1
    have htPQ : t * (P * Q) ≤ 255 * (P * Q) := Nat.mul_le_mul_right _ ht
    have hbig : (X * Q) * 2 ^ 53 < (Y * P) * 2 ^ 53 := by
      linarith [h4Q, h9P, hPQ, htPQ]
    exact lt_of_mul_lt_mul_right hbig (Nat.zero_le _)

/-- A strictly smaller subtrahend keeps the rounded difference positive. -/
theorem flSub_pos (x y : ℕ × ℕ) (h : y.1 * 2 ^ x.2 < x.1 * 2 ^ y.2) :
    1 ≤ (flSub x y).1 := by
  have hnum : 1 ≤ x.1 * 2 ^ y.2 - y.1 * 2 ^ x.2 := by omega
  simp only [flSub]
  rw [if_neg (by omega)]
  show 1 ≤ (round53 (x.1 * 2 ^ y.2 - y.1 * 2 ^ x.2)).1 *
    2 ^ (round53 (x.1 * 2 ^ y.2 - y.1 * 2 ^ x.2)).2
  exact Nat.mul_pos (round53_pos _ hnum) (Nat.pos_pow_of_pos _ (by norm_num))

theorem flMul_pos (x y : ℕ × ℕ) (hx : 1 ≤ x.1) (hy : 1 ≤ y.1) :
    1 ≤ (flMul x y).1 := by
  have hp : 1 ≤ x.1 * y.1 := Nat.mul_pos hx hy
  simp only [flMul]
  rw [if_neg (by omega)]
  show 1 ≤ (round53 (x.1 * y.1)).1 * 2 ^ (round53 (x.1 * y.1)).2
  exact Nat.mul_pos (round53_pos _ hp) (Nat.pos_pow_of_pos _ (by norm_num))

theorem intFloat_pos (P : ℕ) (hP : 1 ≤ P) : 1 ≤ (intFloat P).1 := by
  simp only [intFloat]
  rw [if_neg (by omega)]
  show 1 ≤ (round53 P).1 * 2 ^ (round53 P).2
  exact Nat.mul_pos (round53_pos _ hP) (Nat.pos_pow_of_pos _ (by norm_num))

theorem dyValue_pos (x : ℕ × ℕ) (h : 1 ≤ x.1) : 0 < dyValue x := by
  unfold dyValue
  apply div_pos
  · exact_mod_cast h
  · positivity

/-- The boolean comparison of two dyadic doubles decides the comparison of
their values. -/
theorem flLt_iff (x y : ℕ × ℕ) : flLt x y = true ↔ dyValue x < dyValue y := by
  unfold flLt dyValue
  rw [decide_eq_true_eq, div_lt_div_iff₀ (by positivity) (by positivity)]
  constructor
  · intro h
    exact_mod_cast h
  · intro h
    exact_mod_cast h

/-- Upper bound of the resize computation: scaling any dimension `w` that is
at most the reference dimension `m` by the double `N / m` and truncating
never exceeds `N` (for the target sizes used by the code). -/
theorem mul53floor_le (N m w : ℕ) (hm : 1 ≤ m) (hN : 1 ≤ N) (hN' : N ≤ 1500)
    (hw : w ≤ m) :
    mul53floor w (divRound N m).1 (divRound N m).2 ≤ N := by
  have hsmall : N < 2 ^ 52 * m := by omega
  obtain ⟨d1, d2, d3, d4, d5, d6, d7⟩ := divRound_spec N m hm hN hsmall
  set A := (divRound N m).1 with hA
  set t := (divRound N m).2 with ht
  unfold mul53floor
  rcases Nat.eq_zero_or_pos (w * A) with hp0 | hppos
  · rw [hp0]
    simp [round53, findLeast, findLeastAux, roundNE]
  obtain ⟨r1, r2, r3, r4⟩ := round53_spec (w * A) hppos
  set B := (round53 (w * A)).1 with hB
  set d := (round53 (w * A)).2 with hd
  set p := w * A with hp
  -- Goal: B * 2 ^ d / 2 ^ t ≤ N; it suffices that B * 2 ^ d < (N + 1) * 2 ^ t.
  have hXpos : 0 < 2 ^ t := Nat.pos_pow_of_pos t (by norm_num)
  rw [Nat.lt_succ_iff.symm]
  rw [Nat.div_lt_iff_lt_mul hXpos]
  -- 2 * p ≤ 2 * (N * 2 ^ t) + m  since w ≤ m
  have hpm : 2 * p ≤ 2 * (N * 2 ^ t) + m := by
    have : p ≤ m * A := by
      rw [hp]
      exact Nat.mul_le_mul_right A hw
    nlinarith [d3]
  -- constants controlling the error terms
  have hmX : 2 ^ 52 * m ≤ 1500 * 2 ^ t := by
    have : N * 2 ^ t ≤ 1500 * 2 ^ t := Nat.mul_le_mul_right _ hN'
    omega
  have hX2 : 2 ≤ 2 ^ t := by
    calc 2 = 2 ^ 1 := rfl
      _ ≤ 2 ^ t := Nat.pow_le_pow_right (by norm_num) d7
  have hgoal : (N + 1) * 2 ^ t = N * 2 ^ t + 2 ^ t := by ring
  rw [hgoal]
  rcases r2 with hd0 | hdge
  · -- no rounding error beyond the division: 2 ^ d = 1
    have hD1 : 2 ^ d = 1 := by rw [hd0]; rfl
    rw [hD1] at r3 ⊢
    -- 2 * (B * 1) ≤ 2 * p + 1 ≤ 2 * (N * 2 ^ t) + m + 1 < 2 * (N * 2 ^ t + 2 ^ t)
    linarith [r3, hpm, hmX, hX2]
  · -- 2 ^ 52 * 2 ^ d ≤ p ≤ m * 2 ^ 53 so 2 ^ d ≤ 2 * m
    have hpmA : p ≤ m * 2 ^ 53 := by
      rw [hp]
      calc w * A ≤ m * A := Nat.mul_le_mul_right A hw
        _ ≤ m * 2 ^ 53 := Nat.mul_le_mul_left m d6
    have hD2m : 2 ^ d ≤ 2 * m := by linarith [hdge, hpmA]
    linarith [r3, hpm, hD2m, hmX, hX2]

/-- Lower bound of the resize computation: scaling any dimension `w` that is
at least the reference dimension `m` by the double `N / m` and truncating
yields at least `N - 1` (stated additively as `N ≤ result + 1`). -/
theorem mul53floor_ge (N m w : ℕ) (hm : 1 ≤ m) (hN : 1 ≤ N) (hN' : N ≤ 1500)
    (hw : m ≤ w) :
    N ≤ mul53floor w (divRound N m).1 (divRound N m).2 + 1 := by
  have hsmall : N < 2 ^ 52 * m := by omega
  obtain ⟨d1, d2, d3, d4, d5, d6, d7⟩ := divRound_spec N m hm hN hsmall
  set A := (divRound N m).1 with hA
  set t := (divRound N m).2 with ht
  unfold mul53floor
  have hppos : 0 < w * A := Nat.mul_pos (by omega) (by omega)
  obtain ⟨r1, r2, r3, r4⟩ := round53_spec (w * A) hppos
  set B := (round53 (w * A)).1 with hB
  set d := (round53 (w * A)).2 with hd
  set p := w * A with hp
  -- Goal suffices: (N - 1) * 2 ^ t ≤ B * 2 ^ d, i.e. N * 2 ^ t ≤ B * 2 ^ d + 2 ^ t
  have hXpos : 0 < 2 ^ t := Nat.pos_pow_of_pos t (by norm_num)
  have hkey : N * 2 ^ t ≤ B * 2 ^ d + 2 ^ t → N ≤ B * 2 ^ d / 2 ^ t + 1 := by
    intro hyp
    have h1 : (N - 1) * 2 ^ t ≤ B * 2 ^ d := by
      rcases Nat.eq_zero_or_pos N with h0 | hNpos
      · omega
      · have : (N - 1) * 2 ^ t + 2 ^ t = N * 2 ^ t := by
          have : N - 1 + 1 = N := by omega
          calc (N - 1) * 2 ^ t + 2 ^ t = (N - 1 + 1) * 2 ^ t := by ring
            _ = N * 2 ^ t := by rw [‹N - 1 + 1 = N›]
        omega
    have := (Nat.le_div_iff_mul_le hXpos).2 h1
    omega
  apply hkey
  -- 2 * (N * 2 ^ t) ≤ 2 * p + m  since m ≤ w
  have hpm : 2 * (N * 2 ^ t) ≤ 2 * p + m := by
    have : m * A ≤ p := by
      rw [hp]
      exact Nat.mul_le_mul_right A hw
    nlinarith [d4]
  have hmX : 2 ^ 52 * m ≤ 1500 * 2 ^ t := by
    have : N * 2 ^ t ≤ 1500 * 2 ^ t := Nat.mul_le_mul_right _ hN'
    omega
  have hX2 : 2 ≤ 2 ^ t := by
    calc 2 = 2 ^ 1 := rfl
      _ ≤ 2 ^ t := Nat.pow_le_pow_right (by norm_num) d7
  have hntX : N * 2 ^ t ≤ 1500 * 2 ^ t := Nat.mul_le_mul_right _ hN'
  rcases r2 with hd0 | hdge
  · have hD1 : 2 ^ d = 1 := by rw [hd0]; rfl
    rw [hD1] at r4 ⊢
    -- 2 * p ≤ 2 * B + 1 and 2 * (N * 2^t) ≤ 2 * p + m with m + 1 ≤ 2 * 2^t
    linarith [r4, hpm, hmX, hX2]
  · -- d ≥ 1: 2 ^ 52 * 2 ^ d ≤ p controls the rounding error relative to p
    -- 2^52 * (2 * B * 2^d) ≥ 2^53 * p - p
    have c1 : 2 ^ 53 * p ≤ 2 ^ 52 * (2 * B * 2 ^ d) + p := by
      linarith [r4, hdge]
    -- conclude: N * 2^t ≤ B * 2^d + 2^t, after scaling by 2^53
    linarith [c1, hpm, hmX, hX2, hntX]

theorem upscalePhase_min_bounds (w h : ℕ) (hpos : 1 ≤ min w h)
    (hlt : min w h < 400) :
    399 ≤ min (upscalePhase w h).1 (upscalePhase w h).2 ∧
    min (upscalePhase w h).1 (upscalePhase w h).2 ≤ 400 := by
  unfold upscalePhase
  rw [if_pos hlt]
  have hw : min w h ≤ w := min_le_left w h
  have hh : min w h ≤ h := min_le_right w h
  have hgw := mul53floor_ge 400 (min w h) w hpos (by norm_num) (by norm_num) hw
  have hgh := mul53floor_ge 400 (min w h) h hpos (by norm_num) (by norm_num) hh
  constructor
  · exact le_min (by omega) (by omega)
  · rcases min_choice w h with hc | hc
    · have hle := mul53floor_le 400 (min w h) w hpos (by norm_num) (by norm_num)
        (by rw [hc])
      calc min _ _ ≤ _ := min_le_left _ _
        _ ≤ 400 := hle
    · have hle := mul53floor_le 400 (min w h) h hpos (by norm_num) (by norm_num)
        (by rw [hc])
      calc min _ _ ≤ _ := min_le_right _ _
        _ ≤ 400 := hle

theorem downscalePhase_max_bounds (w h : ℕ) (hgt : 1500 < max w h) :
    1499 ≤ max (downscalePhase w h).1 (downscalePhase w h).2 ∧
    max (downscalePhase w h).1 (downscalePhase w h).2 ≤ 1500 := by
  unfold downscalePhase
  rw [if_pos hgt]
  have hpos : 1 ≤ max w h := by omega
  have hw : w ≤ max w h := le_max_left w h
  have hh : h ≤ max w h := le_max_right w h
  have hlw := mul53floor_le 1500 (max w h) w hpos (by norm_num) (by norm_num) hw
  have hlh := mul53floor_le 1500 (max w h) h hpos (by norm_num) (by norm_num) hh
  constructor
  · rcases max_choice w h with hc | hc
    · have hge := mul53floor_ge 1500 (max w h) w hpos (by norm_num) (by norm_num)
        (by rw [hc])
      calc (1499 : ℕ) ≤ _ := by omega
        _ ≤ max _ _ := le_max_left _ _
    · have hge := mul53floor_ge 1500 (max w h) h hpos (by norm_num) (by norm_num)
        (by rw [hc])
      calc (1499 : ℕ) ≤ _ := by omega
        _ ≤ max _ _ := le_max_right _ _
  · exact max_le hlw hlh

theorem divRound_400_100_fst : (divRound 400 100).1 = 2 ^ 52 := by decide

theorem divRound_400_100_snd : (divRound 400 100).2 = 50 := by decide

theorem divRound_1500_3000_fst : (divRound 1500 3000).1 = 2 ^ 52 := by decide

theorem divRound_1500_3000_snd : (divRound 1500 3000).2 = 53 := by decide

/-- Scaling by a double that is an exact power of two (such as
`400 / 100 = 4.0` or `1500 / 3000 = 0.5`) is exact: the product
`w * 2 ^ 52` fits in 53 significant bits up to trailing zeros, so the
rounding step of `int(w * scale)` drops nothing. -/
theorem mul53floor_exact52 (w t : ℕ) (hw : 1 ≤ w) (hw' : w < 2 ^ 53) :
    mul53floor w (2 ^ 52) t = w * 2 ^ 52 / 2 ^ t := by
  simp only [mul53floor]
  rw [round53_mul52 w hw hw']

/-- Coarse lower bound of the upscale product for dimensions too large for
exactness: even with rounding, `int(w * 4.0)` is at least `2 * w`. -/
theorem mul53floor_ge_twice (w : ℕ) (hw : 1 ≤ w) :
    2 * w ≤ mul53floor w (2 ^ 52) 50 := by
  simp only [mul53floor]
  obtain ⟨r1, r2, r3, r4⟩ := round53_spec (w * 2 ^ 52) (Nat.mul_pos hw (by norm_num))
  rw [Nat.le_div_iff_mul_le (by positivity)]
  rcases r2 with h0 | hge
  · rw [h0] at r4 ⊢
    norm_num at r4 ⊢
    linarith [r4, hw]
  · have hdw : 2 ^ (round53 (w * 2 ^ 52)).2 ≤ w := by
      have h2 : 2 ^ (round53 (w * 2 ^ 52)).2 * 2 ^ 52 ≤ w * 2 ^ 52 := by
        linarith [hge]
      exact Nat.le_of_mul_le_mul_right h2 (by norm_num)
    linarith [r4, hdw, hw]

/-- An image entering step 9 with `min_dim = 100` is upscaled by the exact
double `4.0`, so the smaller output dimension is exactly 400 for every
aspect ratio. -/
theorem upscale_min100 (w h : ℕ) (hmin : min w h = 100) :
    min (upscalePhase w h).1 (upscalePhase w h).2 = 400 := by
  have hcases : (w = 100 ∧ 100 ≤ h) ∨ (h = 100 ∧ 100 ≤ w) := by omega
  unfold upscalePhase
  rw [hmin]
  rw [if_pos (by norm_num)]
  rw [divRound_400_100_fst, divRound_400_100_snd]
  have h100 : mul53floor 100 (2 ^ 52) 50 = 400 := by decide
  have h53 : (400 : ℕ) ≤ 2 ^ 53 := by norm_num
  have hbig : ∀ u : ℕ, 100 ≤ u → 400 ≤ mul53floor u (2 ^ 52) 50 := by
    intro u hu
    by_cases hu' : u < 2 ^ 53
    · rw [mul53floor_exact52 u 50 (by omega) hu']
      have he : u * 2 ^ 52 / 2 ^ 50 = 4 * u :=
        Nat.div_eq_of_eq_mul_left (by positivity) (by ring)
      omega
    · have h2u := mul53floor_ge_twice u (by omega)
      omega
  rcases hcases with ⟨hw, hh⟩ | ⟨hh, hw⟩
  · subst hw
    rw [h100]
    have := hbig h hh
    omega
  · subst hh
    rw [h100]
    have := hbig w hw
    omega

/-- When the upscaled image does not trigger the downscale, the exact
smaller dimension 400 survives step 9. -/
theorem step9_min100 (w h : ℕ) (hmin : min w h = 100)
    (hmax : max (upscalePhase w h).1 (upscalePhase w h).2 ≤ 1500) :
    min (step9dims w h).1 (step9dims w h).2 = 400 := by
  unfold step9dims downscalePhase
  rw [if_neg (by omega)]
  exact upscale_min100 w h hmin

/-- An image entering step 9 with `min_dim ≥ 400` and `max_dim = 3000`
skips the upscale and is downscaled by the exact double `0.5`, so the
larger output dimension is exactly 1500 for every aspect ratio. -/
theorem step9_max3000 (w h : ℕ) (hmin : 400 ≤ min w h) (hmax : max w h = 3000) :
    max (step9dims w h).1 (step9dims w h).2 = 1500 := by
  unfold step9dims upscalePhase
  rw [if_neg (by omega)]
  show max (downscalePhase w h).1 (downscalePhase w h).2 = 1500
  unfold downscalePhase
  rw [hmax]
  rw [if_pos (by norm_num)]
  rw [divRound_1500_3000_fst, divRound_1500_3000_snd]
  have h53 : (3000 : ℕ) < 2 ^ 53 := by norm_num
  have hhalf : ∀ u : ℕ, 1 ≤ u → u < 2 ^ 53 → mul53floor u (2 ^ 52) 53 = u / 2 := by
    intro u hu hu'
    rw [mul53floor_exact52 u 53 hu hu']
    have he : (2 : ℕ) ^ 53 = 2 * 2 ^ 52 := by ring
    rw [he, Nat.mul_div_mul_right _ _ (by positivity)]
  have hw3 : w ≤ 3000 := by omega
  have hh3 : h ≤ 3000 := by omega
  rw [hhalf w (by omega) (by omega), hhalf h (by omega) (by omega)]
  omega

/-- Claim C2, as stated, is false at concrete inputs.  A 97 x 97 image
entering step 9 has `min_dim = 97 < 400`, yet `int(97 * (400 / 97))`
yields 399 (the double `400 / 97` rounds down and `int` truncates), so the
smaller output dimension is 399, not exactly 400.  A 400 x 2147 image has
`max_dim = 2147 > 1500`, yet `int(2147 * (1500 / 2147))` yields 1499, so
the larger output dimension is 1499, not exactly 1500.  And a 100 x 10000
image has `min_dim = 100`, is upscaled exactly to 400 x 40000, but the
subsequent downscale to 15 x 1500 destroys the smaller dimension 400, so
`min_dim = 100` does not guarantee an output `min_dim` of 400. -/
theorem C2_counterexample :
    (step9dims 97 97 = (399, 399) ∧
      min (step9dims 97 97).1 (step9dims 97 97).2 ≠ 400) ∧
    (step9dims 400 2147 = (279, 1499) ∧
      max (step9dims 400 2147).1 (step9dims 400 2147).2 ≠ 1500) ∧
    (step9dims 100 10000 = (15, 1500) ∧
      min (step9dims 100 10000).1 (step9dims 100 10000).2 ≠ 400) := by
  exact ⟨⟨by decide, by decide⟩, ⟨by decide, by decide⟩, ⟨by decide, by decide⟩⟩

/-- Claim C2 (amended): in step 9, an image whose smaller dimension is
below 400 is upscaled so that the smaller output dimension is 399 or 400
(the float scale `400 / min_dim` truncated by `int` can lose one pixel;
97 x 97 leaves at 399 x 399); measured on the possibly-upscaled image, an
image whose larger dimension exceeds 1500 is downscaled so that the larger
output dimension is 1499 or 1500 (400 x 2147 leaves at 279 x 1499).  When
the scale is an exact double the bounds are exact, for every aspect ratio:
`min_dim = 100` (scale `4.0`) upscales to a smaller dimension of exactly
400, and this survives step 9 whenever the upscaled larger dimension is at
most 1500; `min_dim ≥ 400` with `max_dim = 3000` (scale `0.5`) leaves step
9 with a larger dimension of exactly 1500. -/
theorem C2_step9_resolution_bounds :
    (∀ w h : ℕ, 1 ≤ min w h → min w h < 400 →
      399 ≤ min (upscalePhase w h).1 (upscalePhase w h).2 ∧
      min (upscalePhase w h).1 (upscalePhase w h).2 ≤ 400) ∧
    (∀ w h : ℕ, 1500 < max w h →
      1499 ≤ max (downscalePhase w h).1 (downscalePhase w h).2 ∧
      max (downscalePhase w h).1 (downscalePhase w h).2 ≤ 1500) ∧
    (∀ w h : ℕ, min w h = 100 →
      min (upscalePhase w h).1 (upscalePhase w h).2 = 400) ∧
    (∀ w h : ℕ, min w h = 100 →
      max (upscalePhase w h).1 (upscalePhase w h).2 ≤ 1500 →
      min (step9dims w h).1 (step9dims w h).2 = 400) ∧
    (∀ w h : ℕ, 400 ≤ min w h → max w h = 3000 →
      max (step9dims w h).1 (step9dims w h).2 = 1500) :=
  ⟨upscalePhase_min_bounds, downscalePhase_max_bounds, upscale_min100,
    step9_min100, step9_max3000⟩

/-- Witness for C2: the amended bounds instantiated at the concrete inputs
97 x 203 (inexact upscale), 400 x 2147 (inexact downscale), 100 x 250
(exact upscale by `4.0`, surviving step 9) and 2999 x 3000 (exact
downscale by `0.5`). -/
theorem C2_step9_resolution_bounds_witness :
    ((399 ≤ min (upscalePhase 97 203).1 (upscalePhase 97 203).2 ∧
      min (upscalePhase 97 203).1 (upscalePhase 97 203).2 ≤ 400) ∧
    (1499 ≤ max (downscalePhase 400 2147).1 (downscalePhase 400 2147).2 ∧
      max (downscalePhase 400 2147).1 (downscalePhase 400 2147).2 ≤ 1500)) ∧
    min (upscalePhase 100 250).1 (upscalePhase 100 250).2 = 400 ∧
    min (step9dims 100 250).1 (step9dims 100 250).2 = 400 ∧
    max (step9dims 2999 3000).1 (step9dims 2999 3000).2 = 1500 :=
  ⟨⟨C2_step9_resolution_bounds.1 97 203 (by decide) (by decide),
    C2_step9_resolution_bounds.2.1 400 2147 (by decide)⟩,
   C2_step9_resolution_bounds.2.2.1 100 250 (by decide),
   C2_step9_resolution_bounds.2.2.2.1 100 250 (by decide) (by decide),
   C2_step9_resolution_bounds.2.2.2.2 2999 3000 (by decide) (by decide)⟩

/-- Claim C10: for every image with positive width and height entering step
8, step 8 leaves both dimensions at least 31 (the 3-pixel crop fires only
when both dimensions exceed 16, so the crop box is never degenerate, and
the 15-pixel border is always added on all sides), hence the divisors
`min_dim` and `max_dim` of the scale expressions `400 / min_dim` and
`1500 / max_dim` in step 9 are strictly positive. -/
theorem C10_step8_dims_positive (w h : ℕ) (hw : 1 ≤ w) (hh : 1 ≤ h) :
    31 ≤ (step8dims w h).1 ∧ 31 ≤ (step8dims w h).2 ∧
    0 < min (step8dims w h).1 (step8dims w h).2 ∧
    0 < max (step8dims w h).1 (step8dims w h).2 ∧
    (2 * 3 + 10 < w ∧ 2 * 3 + 10 < h → 3 < w - 3 ∧ 3 < h - 3) := by
  unfold step8dims
  split
  all_goals simp only [Prod.fst, Prod.snd]
  all_goals omega

/-- Witness for C10 at the smallest positive size, 1 x 1. -/
theorem C10_step8_dims_positive_witness :
    31 ≤ (step8dims 1 1).1 ∧ 31 ≤ (step8dims 1 1).2 ∧
    0 < min (step8dims 1 1).1 (step8dims 1 1).2 ∧
    0 < max (step8dims 1 1).1 (step8dims 1 1).2 ∧
    (2 * 3 + 10 < 1 ∧ 2 * 3 + 10 < 1 → 3 < 1 - 3 ∧ 3 < 1 - 3) :=
  C10_step8_dims_positive 1 1 (by decide) (by decide)

theorem cleanupTemp_removes (fs : Finset String) (p : String) :
    p ∉ cleanupTemp fs p := by
  unfold cleanupTemp
  split
  · exact Finset.not_mem_erase p fs
  · assumption

/-- Claim C6: whenever the handler reaches the recognition call (the
temporary artifact exists and `recognize_molecule_with_osra` is invoked),
the temporary file is deleted before the handler returns, on every exit
path: recognition returned a SMILES, recognition returned `None`, or an
exception escaped the recognition call (the `finally` block runs in all
three cases, before the outer `except` builds the 500 response). -/
theorem C6_temp_file_always_deleted (r : RecOutcome) (fs : Finset String)
    (p : String) : p ∉ (analyze_molecule_tail r fs p).2 := by
  rcases r with o | msg
  · simpa [analyze_molecule_tail] using cleanupTemp_removes fs p
  · simpa [analyze_molecule_tail] using cleanupTemp_removes fs p

/-- Claim C7: when the engine invocation times out, the executable is
missing, the process exits non-zero, or its stripped standard output is
empty, `recognize_molecule_with_osra` returns `None` (it does not raise),
and the handler answers HTTP 200 with `success: false` and an error
string — never an HTTP error status. -/
theorem C7_failures_degrade_to_success_false (o : EngineOutcome)
    (h : o = .timeout ∨ o = .notFound ∨
      ∃ rc out err, o = .completed rc out err ∧ (rc ≠ 0 ∨ pyStrip out = "")) :
    recognize_molecule_with_osra o = none ∧
    ∀ (fs : Finset String) (p : String),
      (analyze_molecule_tail (.engine o) fs p).1 = notRecognizedResp ∧
      (analyze_molecule_tail (.engine o) fs p).1.status = 200 ∧
      (analyze_molecule_tail (.engine o) fs p).1.success = some false ∧
      (analyze_molecule_tail (.engine o) fs p).1.error.isSome = true := by
  have hnone : recognize_molecule_with_osra o = none := by
    rcases h with h | h | ⟨rc, out, err, heq, hbad⟩
    · rw [h]; rfl
    · rw [h]; rfl
    · rw [heq]
      simp only [recognize_molecule_with_osra]
      rcases hbad with hrc | hout
      · rw [if_neg hrc]
      · rw [hout]
        simp
  refine ⟨hnone, fun fs p => ?_⟩
  simp [analyze_molecule_tail, hnone, notRecognizedResp]

/-- Witness for C7: the timeout outcome at a concrete filesystem. -/
theorem C7_failures_degrade_to_success_false_witness :
    recognize_molecule_with_osra .timeout = none ∧
    (analyze_molecule_tail (.engine .timeout) ∅ "artifact.png").1 =
      notRecognizedResp ∧
    (analyze_molecule_tail (.engine .timeout) ∅ "artifact.png").1.status = 200 ∧
    (analyze_molecule_tail (.engine .timeout) ∅ "artifact.png").1.success =
      some false ∧
    (analyze_molecule_tail (.engine .timeout) ∅ "artifact.png").1.error.isSome =
      true := by
  obtain ⟨h1, h2⟩ :=
    C7_failures_degrade_to_success_false .timeout (Or.inl rfl)
  exact ⟨h1, h2 ∅ "artifact.png"⟩

theorem step6binarize_mode (img : Img) : (step6binarize img).mode = Mode.L := rfl

theorem step7median_mode (img : Img) : (step7median img).mode = img.mode := rfl

theorem step8cropPad_mode (img : Img) : (step8cropPad img).mode = img.mode := by
  unfold step8cropPad expand15
  split
  · rfl
  · rfl

theorem step9resize_mode (img : Img) : (step9resize img).mode = img.mode := by
  unfold step9resize resampleTo
  dsimp only
  split
  · split
    · rfl
    · rfl
  · split
    · rfl
    · rfl

/-- The nine-step pipeline always produces a single-channel (`L`) image:
step 6 outputs mode `L` and steps 7, 8 and 9 preserve the mode. -/
theorem backend_preprocess_mode (img : Img) :
    (Backend.preprocess_image img).mode = Mode.L := by
  unfold Backend.preprocess_image
  rw [step9resize_mode, step8cropPad_mode, step7median_mode, step6binarize_mode]

/-- Claim C9: the two preprocessing variants are not equivalent — on an
RGB input (here the 1 x 1 white RGB image) the minimal `preprocess_image`
of `src/server.py` returns the RGB image unchanged while the nine-step
`preprocess_image` of `src/backend/server.py` returns a single-channel
image, so the outputs differ. -/
theorem C9_preprocess_variants_differ :
    Backend.preprocess_image ⟨.RGB, 1, 1, [], [[.rgb 255 255 255]]⟩ ≠
    Minimal.preprocess_image ⟨.RGB, 1, 1, [], [[.rgb 255 255 255]]⟩ := by
  intro hEq
  have h1 : (Backend.preprocess_image
      ⟨.RGB, 1, 1, [], [[.rgb 255 255 255]]⟩).mode = Mode.L :=
    backend_preprocess_mode _
  have h2 : (Minimal.preprocess_image
      ⟨.RGB, 1, 1, [], [[.rgb 255 255 255]]⟩).mode = Mode.RGB := by
    unfold Minimal.preprocess_image
    rw [if_neg]
    simp
  rw [hEq, h2] at h1
  exact absurd h1 (by decide)

theorem blendPx_eq_clamp (mean v : ℕ) :
    blendPx mean v =
      (max 0 (min 255 ((3 * (v : ℤ) - (mean : ℤ)) / 2))).toNat := by
  have harith : 2 * (mean : ℤ) + 3 * ((v : ℤ) - (mean : ℤ)) =
      3 * (v : ℤ) - (mean : ℤ) := by ring
  simp only [blendPx]
  rw [harith]
  split_ifs <;> omega

/-- The rounded mean `contrastMean S C` is within one of the exact average
`S / C` (stated cross-multiplied): the double computation
`int(sum / count + 0.5)` loses at most half from the rounding and strictly
less than one from the truncation. -/
theorem contrastMean_close (S C : ℕ) (hC : 1 ≤ C) (hS : S ≤ 255 * C) :
    2 * contrastMean S C * C ≤ 2 * S + 2 * C ∧
    2 * S ≤ 2 * contrastMean S C * C + 2 * C := by
  rcases Nat.eq_zero_or_pos S with hS0 | hSpos
  · subst hS0
    simp [contrastMean]
  have hsmall : S < 2 ^ 52 * C := by omega
  obtain ⟨d1, d2, d3, d4, d5, d6, d7⟩ := divRound_spec S C hC hSpos hsmall
  set A := (divRound S C).1 with hA
  set t := (divRound S C).2 with ht
  have hmean : contrastMean S C =
      (round53 (2 * A + 2 ^ t)).1 * 2 ^ (round53 (2 * A + 2 ^ t)).2 /
        2 ^ (t + 1) := by
    unfold contrastMean
    rw [if_neg (by omega)]
  have hYpos : 0 < 2 ^ t := Nat.pos_pow_of_pos t (by norm_num)
  have hPpos : 1 ≤ 2 * A + 2 ^ t := by omega
  obtain ⟨r1, r2, r3, r4⟩ := round53_spec (2 * A + 2 ^ t) hPpos
  set B := (round53 (2 * A + 2 ^ t)).1 with hB
  set d := (round53 (2 * A + 2 ^ t)).2 with hd
  set mean := contrastMean S C with hmn
  have hY2 : 2 ≤ 2 ^ t := by
    calc 2 = 2 ^ 1 := rfl
      _ ≤ 2 ^ t := Nat.pow_le_pow_right (by norm_num) d7
  have hYbig : 2 ^ 52 ≤ 255 * 2 ^ t := by
    have h255 : S * 2 ^ t ≤ 255 * C * 2 ^ t := Nat.mul_le_mul_right _ hS
    nlinarith [d1]
  have hexp : 2 ^ (t + 1) = 2 * 2 ^ t := by rw [pow_succ]; ring
  have hexpPos : 0 < 2 ^ (t + 1) := Nat.pos_pow_of_pos _ (by norm_num)
  -- division facts for mean = B * 2 ^ d / 2 ^ (t + 1)
  have hdm := Nat.div_add_mod (B * 2 ^ d) (2 ^ (t + 1))
  have hml : (B * 2 ^ d) % 2 ^ (t + 1) < 2 ^ (t + 1) := Nat.mod_lt _ hexpPos
  have hdiv1 : mean * (2 * 2 ^ t) ≤ B * 2 ^ d := by
    rw [hmean, ← hexp]
    exact Nat.div_mul_le_self _ _
  have hdiv2 : B * 2 ^ d ≤ mean * (2 * 2 ^ t) + 2 * 2 ^ t := by
    rw [hmean, ← hexp]
    calc B * 2 ^ d
        = 2 ^ (t + 1) * (B * 2 ^ d / 2 ^ (t + 1)) + B * 2 ^ d % 2 ^ (t + 1) :=
          (Nat.div_add_mod _ _).symm
      _ ≤ 2 ^ (t + 1) * (B * 2 ^ d / 2 ^ (t + 1)) + 2 ^ (t + 1) :=
          Nat.add_le_add_left (le_of_lt hml) _
      _ = B * 2 ^ d / 2 ^ (t + 1) * 2 ^ (t + 1) + 2 ^ (t + 1) := by ring
  -- bound the dropped-bits factor: 2 + 2 ^ d ≤ 2 * 2 ^ t
  have hDle : 2 + 2 ^ d ≤ 2 * 2 ^ t := by
    rcases r2 with h0 | hge
    · rw [h0]
      simpa using by omega
    · linarith [hge, hYbig, d6]
  have f4 : C * (2 + 2 ^ d) ≤ C * (2 * 2 ^ t) := Nat.mul_le_mul_left C hDle
  constructor
  · -- upper bound, scaled by 2 * 2 ^ t
    have f1 : 2 * C * (mean * (2 * 2 ^ t)) ≤ 2 * C * (B * 2 ^ d) :=
      Nat.mul_le_mul_left _ hdiv1
    have f2 : C * (2 * B * 2 ^ d) ≤ C * (2 * (2 * A + 2 ^ t) + 2 ^ d) :=
      Nat.mul_le_mul_left C r3
    have key : 2 * mean * C * (2 * 2 ^ t) ≤ (2 * S + 2 * C) * (2 * 2 ^ t) := by
      linarith [f1, f2, d3, f4]
    exact Nat.le_of_mul_le_mul_right key (by positivity)
  · -- lower bound, scaled by 2 * 2 ^ t
    have g2 : C * (2 * (2 * A + 2 ^ t)) ≤ C * (2 * B * 2 ^ d + 2 ^ d) :=
      Nat.mul_le_mul_left C r4
    have g3 : 2 * C * (B * 2 ^ d) ≤ 2 * C * (mean * (2 * 2 ^ t) + 2 * 2 ^ t) :=
      Nat.mul_le_mul_left _ hdiv2
    have key : 2 * S * (2 * 2 ^ t) ≤ (2 * mean * C + 2 * C) * (2 * 2 ^ t) := by
      linarith [d4, g2, g3, f4]
    exact Nat.le_of_mul_le_mul_right key (by positivity)

/-- Claim C5, as stated, fails at a concrete input: for the 1 x 1 image of
luminance 100, the library contrast enhancer scales deviation from the
image's rounded mean (100), so the output pixel is 100; the claim's
formula `clamp(128 + 1.5 * (100 - 128), 0, 255)` gives 86 — a difference
far beyond integer rounding. -/
theorem C5_counterexample :
    step5contrast ⟨.L, 1, 1, [], [[.lum 100]]⟩ =
      ⟨.L, 1, 1, [], [[.lum 100]]⟩ ∧
    blendPx 128 100 = 86 ∧ (100 : ℕ) ≠ 86 := by
  refine ⟨by decide, by decide, by decide⟩

/-- Claim C5 (amended): step 5 maps each pixel `p` of the grayscale image
to `trunc(clamp(mean + 1.5 * (p - mean), 0, 255))` where `mean` is the
rounded mean luminance of the image — `int(sum / count + 0.5)`, within one
of the exact average — not the fixed mid-gray 128. -/
theorem C5_contrast_scales_from_image_mean (img : Img)
    (hC : 1 ≤ lumCount img) (hS : lumSum img ≤ 255 * lumCount img) :
    step5contrast img = mapPx (fun px =>
      match px with
      | .lum v => .lum ((max 0 (min 255 ((3 * (v : ℤ) -
          (contrastMean (lumSum img) (lumCount img) : ℤ)) / 2))).toNat)
      | other => other) img ∧
    2 * contrastMean (lumSum img) (lumCount img) * lumCount img ≤
      2 * lumSum img + 2 * lumCount img ∧
    2 * lumSum img ≤
      2 * contrastMean (lumSum img) (lumCount img) * lumCount img +
        2 * lumCount img := by
  refine ⟨?_, (contrastMean_close _ _ hC hS).1, (contrastMean_close _ _ hC hS).2⟩
  unfold step5contrast
  congr 1
  funext px
  cases px with
  | lum v => simp [blendPx_eq_clamp]
  | rgb r g b => rfl
  | rgba r g b a => rfl
  | pal i => rfl

/-- Witness for C5 at a concrete two-pixel image (luminances 100 and 200,
mean 150). -/
theorem C5_contrast_scales_from_image_mean_witness :
    (step5contrast ⟨.L, 2, 1, [], [[.lum 100, .lum 200]]⟩ =
      mapPx (fun px =>
        match px with
        | .lum v => .lum ((max 0 (min 255 ((3 * (v : ℤ) -
            (contrastMean (lumSum ⟨.L, 2, 1, [], [[.lum 100, .lum 200]]⟩)
              (lumCount ⟨.L, 2, 1, [], [[.lum 100, .lum 200]]⟩) : ℤ)) /
            2))).toNat)
        | other => other) ⟨.L, 2, 1, [], [[.lum 100, .lum 200]]⟩) ∧
    2 * contrastMean (lumSum ⟨.L, 2, 1, [], [[.lum 100, .lum 200]]⟩)
        (lumCount ⟨.L, 2, 1, [], [[.lum 100, .lum 200]]⟩) *
      lumCount ⟨.L, 2, 1, [], [[.lum 100, .lum 200]]⟩ ≤
      2 * lumSum ⟨.L, 2, 1, [], [[.lum 100, .lum 200]]⟩ +
        2 * lumCount ⟨.L, 2, 1, [], [[.lum 100, .lum 200]]⟩ := by
  obtain ⟨h1, h2, h3⟩ :=
    C5_contrast_scales_from_image_mean ⟨.L, 2, 1, [], [[.lum 100, .lum 200]]⟩
      (by decide) (by decide)
  exact ⟨h1, h2⟩

theorem cumHist_succ (hist : ℕ → ℕ) (k : ℕ) :
    cumHist hist (k + 1) = cumHist hist k + hist k := by
  simp [cumHist, List.range_succ]

theorem csumHist_succ (hist : ℕ → ℕ) (k : ℕ) :
    csumHist hist (k + 1) = csumHist hist k + k * hist k := by
  simp [csumHist, List.range_succ]

theorem cumHist_mono (hist : ℕ → ℕ) {k k' : ℕ} (h : k ≤ k') :
    cumHist hist k ≤ cumHist hist k' := by
  induction h with
  | refl => exact le_refl _
  | step h ih =>
    rw [cumHist_succ]
    omega

theorem csumHist_mono (hist : ℕ → ℕ) {k k' : ℕ} (h : k ≤ k') :
    csumHist hist k ≤ csumHist hist k' := by
  induction h with
  | refl => exact le_refl _
  | step h ih =>
    rw [csumHist_succ]
    omega

/-- The background mean is at most `t`: the weighted prefix mass is at
most `t` times the prefix mass. -/
theorem csumHist_le (hist : ℕ → ℕ) (t : ℕ) :
    csumHist hist (t + 1) ≤ t * cumHist hist (t + 1) := by
  induction t with
  | zero =>
    rw [csumHist_succ, cumHist_succ]
    simp [csumHist, cumHist]
  | succ n ih =>
    rw [csumHist_succ, cumHist_succ]
    have h1 : n * cumHist hist (n + 1) ≤ (n + 1) * cumHist hist (n + 1) := by
      exact Nat.mul_le_mul_right _ (by omega)
    nlinarith [ih, h1]

/-- The foreground mean is at least `k`: the weighted mass between `k` and
`K` is at least `k` times the mass between them (stated additively). -/
theorem csumHist_between (hist : ℕ → ℕ) (k : ℕ) :
    ∀ K, k ≤ K →
      k * cumHist hist K + csumHist hist k ≤
        csumHist hist K + k * cumHist hist k := by
  intro K
  induction K with
  | zero => intro h; interval_cases k; omega
  | succ n ih =>
    intro h
    rcases Nat.lt_or_ge k (n + 1) with hlt | hge
    · have hkn : k ≤ n := by omega
      have := ih hkn
      rw [cumHist_succ, csumHist_succ]
      have hmul : k * hist n ≤ n * hist n := Nat.mul_le_mul_right _ hkn
      nlinarith [this, hmul]
    · have hk : k = n + 1 := by omega
      subst hk
      omega

/-- The foreground mean is at most 255: the weighted mass between `k` and
`K` is at most 255 times the mass between them, for `K ≤ 256` (stated
additively). -/
theorem csumHist_upper (hist : ℕ → ℕ) (k : ℕ) :
    ∀ K, k ≤ K → K ≤ 256 →
      csumHist hist K + 255 * cumHist hist k ≤
        csumHist hist k + 255 * cumHist hist K := by
  intro K
  induction K with
  | zero =>
    intro h _
    have hk0 : k = 0 := by omega
    subst hk0
    omega
  | succ n ih =>
    intro h h256
    rcases Nat.lt_or_ge k (n + 1) with hlt | hge
    · have hkn : k ≤ n := by omega
      have hih := ih hkn (by omega)
      rw [cumHist_succ, csumHist_succ]
      have hmul : n * hist n ≤ 255 * hist n := Nat.mul_le_mul_right _ (by omega)
      linarith [hih, hmul]
    · have hk : k = n + 1 := by omega
      subst hk
      omega

/-- Bridge between prefix-sum inequalities and the gap form used for the
mean separation: split off the differences of the truncated subtractions. -/
theorem nat_gap_bounds (a b p q t : ℕ) (hab : a ≤ b) (hpq : p ≤ q)
    (h1 : (t + 1) * b + p ≤ q + (t + 1) * a)
    (h2 : q + 255 * a ≤ p + 255 * b) :
    (t + 1) * (b - a) ≤ q - p ∧ q - p ≤ 255 * (b - a) := by
  obtain ⟨c, rfl⟩ : ∃ c, b = a + c := ⟨b - a, by omega⟩
  obtain ⟨s, rfl⟩ : ∃ s, q = p + s := ⟨q - p, by omega⟩
  rw [Nat.add_sub_cancel_left, Nat.add_sub_cancel_left]
  constructor
  · nlinarith [h1]
  · nlinarith [h2]

theorem otsuVar_pos_aux (wB total sB TS t : ℕ)
    (hpos : 0 < wB) (hlt : wB < total)
    (hsB : sB ≤ t * wB)
    (hbtw : (t + 1) * total + sB ≤ TS + (t + 1) * wB) :
    0 < (wB : ℚ) * ((total - wB : ℕ) : ℚ) *
      ((sB : ℚ) / (wB : ℚ) -
        ((TS : ℚ) - (sB : ℚ)) / ((total - wB : ℕ) : ℚ)) ^ 2 := by
  have hwBtot : wB ≤ total := le_of_lt hlt
  have hqB : (0 : ℚ) < (wB : ℚ) := by exact_mod_cast hpos
  have hqF : (0 : ℚ) < ((total - wB : ℕ) : ℚ) := by
    have h0 : 0 < total - wB := by omega
    exact_mod_cast h0
  have hcast : ((total - wB : ℕ) : ℚ) = (total : ℚ) - (wB : ℚ) :=
    Nat.cast_sub hwBtot
  have hmB : (sB : ℚ) / (wB : ℚ) ≤ (t : ℚ) := by
    rw [div_le_iff₀ hqB]
    exact_mod_cast hsB
  have hmF : ((t : ℚ) + 1) ≤ ((TS : ℚ) - (sB : ℚ)) / ((total - wB : ℕ) : ℚ) := by
    rw [le_div_iff₀ hqF, hcast]
    have hq : ((t : ℚ) + 1) * (total : ℚ) + (sB : ℚ) ≤
        (TS : ℚ) + ((t : ℚ) + 1) * (wB : ℚ) := by exact_mod_cast hbtw
    nlinarith [hq]
  have hdiff : (1 : ℚ) ≤
      ((TS : ℚ) - (sB : ℚ)) / ((total - wB : ℕ) : ℚ) -
        (sB : ℚ) / (wB : ℚ) := by linarith
  have hsq : (1 : ℚ) ≤
      ((sB : ℚ) / (wB : ℚ) -
        ((TS : ℚ) - (sB : ℚ)) / ((total - wB : ℕ) : ℚ)) ^ 2 := by
    nlinarith [hdiff]
  have hXpos : (0 : ℚ) < (wB : ℚ) * ((total - wB : ℕ) : ℚ) := mul_pos hqB hqF
  nlinarith [hXpos, hsq]

/-- Between-class variance is strictly positive at every candidate
threshold: the background mean is at most `t` while the foreground mean is
at least `t + 1`. -/
theorem otsuVar_pos (hist : ℕ → ℕ) (total t : ℕ)
    (htot : total = cumHist hist 256) (ht : t < 256)
    (hc : isCand hist total t) : 0 < otsuVar hist total t := by
  obtain ⟨hpos, hlt⟩ := hc
  have hbtw : (t + 1) * cumHist hist 256 + csumHist hist (t + 1) ≤
      csumHist hist 256 + (t + 1) * cumHist hist (t + 1) :=
    csumHist_between hist (t + 1) 256 (by omega)
  refine otsuVar_pos_aux (cumHist hist (t + 1)) total (csumHist hist (t + 1))
    (csumHist hist 256) t hpos hlt (csumHist_le hist t) ?_
  rw [htot]
  exact hbtw

theorem otsuVar_unfold (hist : ℕ → ℕ) (total k : ℕ) :
    otsuVar hist total k =
      (cumHist hist (k + 1) : ℚ) * ((total - cumHist hist (k + 1) : ℕ) : ℚ) *
        ((csumHist hist (k + 1) : ℚ) / (cumHist hist (k + 1) : ℚ) -
          ((csumHist hist 256 : ℚ) - (csumHist hist (k + 1) : ℚ)) /
            ((total - cumHist hist (k + 1) : ℕ) : ℚ)) ^ 2 := rfl

theorem floatVarDy_unfold (hist : ℕ → ℕ) (total k : ℕ) :
    floatVarDy hist total k =
      flMul (intFloat (cumHist hist (k + 1) * (total - cumHist hist (k + 1))))
        (flMul
          (flSub
            (flDiv (csumHist hist 256 - csumHist hist (k + 1))
              (total - cumHist hist (k + 1)))
            (flDiv (csumHist hist (k + 1)) (cumHist hist (k + 1))))
          (flSub
            (flDiv (csumHist hist 256 - csumHist hist (k + 1))
              (total - cumHist hist (k + 1)))
            (flDiv (csumHist hist (k + 1)) (cumHist hist (k + 1))))) := rfl

theorem floatOtsuVar_def (hist : ℕ → ℕ) (total t : ℕ) :
    floatOtsuVar hist total t = dyValue (floatVarDy hist total t) := rfl

/-- The double-precision variance score has a positive mantissa at every
candidate threshold: the rounded background mean stays below the rounded
foreground mean, so the rounded difference, its square and the final
products are all positive. -/
theorem floatVarDy_pos_aux (wB wF sB sF t : ℕ)
    (hwB : 0 < wB) (hwF : 0 < wF) (ht : t ≤ 255)
    (hsB : sB ≤ t * wB) (hsF : (t + 1) * wF ≤ sF) (hsF' : sF ≤ 255 * wF) :
    1 ≤ (flMul (intFloat (wB * wF))
      (flMul (flSub (flDiv sF wF) (flDiv sB wB))
        (flSub (flDiv sF wF) (flDiv sB wB)))).1 := by
  have hgap := flDiv_gap sB wB sF wF t hwB hwF ht hsB hsF hsF'
  have hdiff : 1 ≤ (flSub (flDiv sF wF) (flDiv sB wB)).1 := flSub_pos _ _ hgap
  exact flMul_pos _ _ (intFloat_pos _ (Nat.mul_pos hwB hwF))
    (flMul_pos _ _ hdiff hdiff)

theorem floatVarDy_pos (hist : ℕ → ℕ) (total t : ℕ)
    (htot : total = cumHist hist 256) (ht : t < 256)
    (hc : isCand hist total t) : 1 ≤ (floatVarDy hist total t).1 := by
  obtain ⟨hpos, hlt⟩ := hc
  have hbtw : (t + 1) * cumHist hist 256 + csumHist hist (t + 1) ≤
      csumHist hist 256 + (t + 1) * cumHist hist (t + 1) :=
    csumHist_between hist (t + 1) 256 (by omega)
  have hup : csumHist hist 256 + 255 * cumHist hist (t + 1) ≤
      csumHist hist (t + 1) + 255 * cumHist hist 256 :=
    csumHist_upper hist (t + 1) 256 (by omega) (by omega)
  have hmono : cumHist hist (t + 1) ≤ cumHist hist 256 := by omega
  have hcsmono : csumHist hist (t + 1) ≤ csumHist hist 256 :=
    csumHist_mono hist (by omega)
  obtain ⟨hgF, hgF'⟩ := nat_gap_bounds (cumHist hist (t + 1)) (cumHist hist 256)
    (csumHist hist (t + 1)) (csumHist hist 256) t hmono hcsmono hbtw hup
  rw [floatVarDy_unfold]
  rw [← htot] at hgF hgF'
  exact floatVarDy_pos_aux (cumHist hist (t + 1)) (total - cumHist hist (t + 1))
    (csumHist hist (t + 1)) (csumHist hist 256 - csumHist hist (t + 1)) t
    hpos (by omega) (by omega) (csumHist_le hist t) hgF hgF'

/-- Main invariant argument for the `_otsu_threshold` scan: processing the
remaining thresholds `[k, 256)` from a state that correctly summarizes the
thresholds below `k` yields the least argmax of the double-precision
variance scores (or 128 when no threshold splits the classes). -/
theorem otsuGo_spec (hist : ℕ → ℕ) (total : ℕ)
    (htot : total = cumHist hist 256) :
    ∀ (n k : ℕ) (bestT : ℕ) (bestVar : ℕ × ℕ), k + n = 256 →
      otsuInv hist total k bestT bestVar →
      otsuResultSpec hist total
        (otsuGo hist total (csumHist hist 256) (List.range' k n)
          (cumHist hist k) (csumHist hist k) bestT bestVar) := by
  intro n
  induction n with
  | zero =>
    intro k bestT bestVar hk hInv
    have hk256 : k = 256 := by omega
    subst hk256
    simp only [List.range', otsuGo]
    rcases hInv with ⟨hno, hbt, _⟩ | ⟨hc, _, _, hmax, hstrict⟩
    · exact Or.inl ⟨fun t ht => hno t ht, hbt⟩
    · exact Or.inr ⟨hc, by omega, fun t ht hct => hmax t ht hct, hstrict⟩
  | succ n ih =>
    intro k bestT bestVar hk hInv
    have hrange : List.range' k (n + 1) = k :: List.range' (k + 1) n := rfl
    rw [hrange]
    simp only [otsuGo]
    rw [← cumHist_succ hist k, ← csumHist_succ hist k]
    by_cases h0 : cumHist hist (k + 1) = 0
    · rw [if_pos h0]
      have hnotc : ¬ isCand hist total k := by
        intro hc
        exact absurd hc.1 (by omega)
      have hcseq : csumHist hist k = csumHist hist (k + 1) := by
        have hcs := cumHist_succ hist k
        have hhk : hist k = 0 := by omega
        rw [csumHist_succ, hhk]
        simp
      rw [hcseq]
      apply ih (k + 1) bestT bestVar (by omega)
      rcases hInv with ⟨hno, hbt, hbv⟩ | ⟨hc, hlt, hbv, hmax, hstrict⟩
      · refine Or.inl ⟨fun t ht => ?_, hbt, hbv⟩
        rcases Nat.lt_or_ge t k with h | h
        · exact hno t h
        · have : t = k := by omega
          rw [this]; exact hnotc
      · refine Or.inr ⟨hc, by omega, hbv, fun t ht hct => ?_, hstrict⟩
        rcases Nat.lt_or_ge t k with h | h
        · exact hmax t h hct
        · have : t = k := by omega
          rw [this] at hct
          exact absurd hct hnotc
    · rw [if_neg h0]
      by_cases hbrk : total - cumHist hist (k + 1) = 0
      · rw [if_pos hbrk]
        -- no candidate at or above k: the background class is already full
        have hnoc : ∀ t, k ≤ t → ¬ isCand hist total t := by
          intro t hkt hc
          have hmono : cumHist hist (k + 1) ≤ cumHist hist (t + 1) :=
            cumHist_mono hist (by omega)
          exact absurd hc.2 (by omega)
        rcases hInv with ⟨hno, hbt, _⟩ | ⟨hc, hltk, hbv, hmax, hstrict⟩
        · refine Or.inl ⟨fun t ht hc => ?_, hbt⟩
          rcases Nat.lt_or_ge t k with h | h
          · exact hno t h hc
          · exact hnoc t h hc
        · refine Or.inr ⟨hc, by omega, fun t ht hct => ?_, fun t ht hct => ?_⟩
          · rcases Nat.lt_or_ge t k with h | h
            · exact hmax t h hct
            · exact absurd hct (hnoc t h)
          · exact hstrict t ht hct
      · rw [if_neg hbrk]
        have hcand : isCand hist total k :=
          ⟨Nat.pos_of_ne_zero h0, by omega⟩
        rw [← floatVarDy_unfold hist total k]
        by_cases hup : flLt bestVar (floatVarDy hist total k) = true
        · rw [if_pos hup]
          apply ih (k + 1) k (floatVarDy hist total k) (by omega)
          refine Or.inr ⟨hcand, by omega, rfl, fun t ht hct => ?_,
            fun t ht hct => ?_⟩
          · rcases Nat.lt_or_ge t k with h | h
            · rcases hInv with ⟨hno, _, _⟩ | ⟨_, _, hbv, hmax, _⟩
              · exact absurd hct (hno t h)
              · have hup' : floatOtsuVar hist total bestT <
                    floatOtsuVar hist total k := by
                  rw [floatOtsuVar_def, floatOtsuVar_def, ← hbv]
                  exact (flLt_iff _ _).1 hup
                exact le_of_lt (lt_of_le_of_lt (hmax t h hct) hup')
            · have : t = k := by omega
              rw [this]
          · rcases hInv with ⟨hno, _, _⟩ | ⟨_, _, hbv, hmax, _⟩
            · exact absurd hct (hno t (by omega))
            · have hup' : floatOtsuVar hist total bestT <
                  floatOtsuVar hist total k := by
                rw [floatOtsuVar_def, floatOtsuVar_def, ← hbv]
                exact (flLt_iff _ _).1 hup
              exact lt_of_le_of_lt (hmax t (by omega) hct) hup'
        · rw [if_neg hup]
          have hposk : 1 ≤ (floatVarDy hist total k).1 :=
            floatVarDy_pos hist total k htot (by omega) hcand
          have hlek : floatOtsuVar hist total k ≤ dyValue bestVar := by
            rw [floatOtsuVar_def]
            exact le_of_not_lt (fun hlt => hup ((flLt_iff _ _).2 hlt))
          rcases hInv with ⟨hno, hbt, hbv⟩ | ⟨hc, hltk, hbv, hmax, hstrict⟩
          · exfalso
            rw [hbv] at hlek
            have hz : dyValue ((0, 0) : ℕ × ℕ) = 0 := by
              simp [dyValue]
            rw [hz] at hlek
            have hpos' : 0 < floatOtsuVar hist total k := by
              rw [floatOtsuVar_def]
              exact dyValue_pos _ hposk
            linarith
          · apply ih (k + 1) bestT bestVar (by omega)
            refine Or.inr ⟨hc, by omega, hbv, fun t ht hct => ?_, hstrict⟩
            rcases Nat.lt_or_ge t k with h | h
            · exact hmax t h hct
            · have htk : t = k := by omega
              rw [htk]
              calc floatOtsuVar hist total k ≤ dyValue bestVar := hlek
                _ = floatOtsuVar hist total bestT := by
                    rw [hbv, floatOtsuVar_def]

theorem cumHist_eq_sum_range (hist : ℕ → ℕ) (K : ℕ) :
    cumHist hist K = ∑ i ∈ Finset.range K, hist i := by
  induction K with
  | zero => rfl
  | succ n ih => rw [cumHist_succ, Finset.sum_range_succ, ih]

theorem sum_count_range (K : ℕ) :
    ∀ (l : List ℕ), (∀ v ∈ l, v < K) →
      (∑ v ∈ Finset.range K, l.count v) = l.length := by
  intro l
  induction l with
  | nil => simp
  | cons a t ih =>
    intro h
    have ha : a < K := h a (by simp)
    simp only [List.count_cons, beq_iff_eq]
    rw [Finset.sum_add_distrib, ih (fun v hv => h v (by simp [hv])),
      Finset.sum_ite_eq]
    simp [ha]

theorem lumVals_length (l : List Px) (h : ∀ px ∈ l, isByteLum px) :
    (l.filterMap (fun px =>
      match px with
      | Px.lum v => some v
      | _ => none)).length = l.length := by
  induction l with
  | nil => rfl
  | cons px ps ih =>
    have hpx := h px (by simp)
    have hrest : ∀ q ∈ ps, isByteLum q := fun q hq => h q (by simp [hq])
    cases px with
    | lum v => simp [List.filterMap_cons, ih hrest]
    | rgb r g b => exact absurd hpx (by simp [isByteLum])
    | rgba r g b a => exact absurd hpx (by simp [isByteLum])
    | pal i => exact absurd hpx (by simp [isByteLum])

theorem map_length_sum (w : ℕ) :
    ∀ (L : List (List Px)), (∀ r ∈ L, r.length = w) →
      (L.map List.length).sum = L.length * w := by
  intro L
  induction L with
  | nil => simp
  | cons r rs ih =>
    intro h
    have hr : r.length = w := h r (by simp)
    simp only [List.map_cons, List.sum_cons, List.length_cons]
    rw [hr, ih (fun q hq => h q (by simp [hq]))]
    ring

theorem lumVals_lt (img : Img)
    (hpx : ∀ px ∈ img.rows.flatten, isByteLum px) :
    ∀ v ∈ lumVals img, v < 256 := by
  intro v hv
  unfold lumVals at hv
  rw [List.mem_filterMap] at hv
  obtain ⟨px, hmem, hfx⟩ := hv
  have hb := hpx px hmem
  cases px with
  | lum u =>
    simp only [Option.some.injEq] at hfx
    subst hfx
    simpa [isByteLum] using hb
  | rgb r g b => simp at hfx
  | rgba r g b a => simp at hfx
  | pal i => simp at hfx

/-- For a well-formed `L` image, the `total_pixels = w * h` used by
`_otsu_threshold` equals the histogram mass. -/
theorem LWf_total (img : Img) (hwf : LWf img) :
    img.w * img.h = cumHist (histogram img) 256 := by
  obtain ⟨hlen, hrows, hpx⟩ := hwf
  have h1 : (lumVals img).length = img.rows.flatten.length :=
    lumVals_length _ hpx
  have h2 : img.rows.flatten.length = img.w * img.h := by
    rw [List.length_flatten, map_length_sum img.w img.rows hrows, hlen]
    ring
  have h3 : cumHist (histogram img) 256 = (lumVals img).length := by
    rw [cumHist_eq_sum_range]
    exact sum_count_range 256 (lumVals img) (lumVals_lt img hpx)
  omega

/-- The Otsu threshold of a well-formed image satisfies the least-argmax
specification. -/
theorem otsuThreshold_spec (img : Img) (hwf : LWf img) :
    otsuResultSpec (histogram img) (img.w * img.h) (otsuThreshold img) := by
  have htot := LWf_total img hwf
  have h := otsuGo_spec (histogram img) (img.w * img.h) htot 256 0 128 0
    (by omega)
    (Or.inl ⟨fun t ht => absurd ht (Nat.not_lt_zero t), rfl, rfl⟩)
  have hc0 : cumHist (histogram img) 0 = 0 := rfl
  have hs0 : csumHist (histogram img) 0 = 0 := rfl
  rw [hc0, hs0] at h
  have hts : ((List.range 256).map (fun i => i * histogram img i)).sum =
      csumHist (histogram img) 256 := rfl
  unfold otsuThreshold
  rw [hts, List.range_eq_range']
  exact h

theorem cum_two_support (hist : ℕ → ℕ) (a b : ℕ) (hab : a ≠ b)
    (hzero : ∀ v, v ≠ a → v ≠ b → hist v = 0) :
    ∀ k, cumHist hist k =
      (if a < k then hist a else 0) + (if b < k then hist b else 0) := by
  intro k
  induction k with
  | zero => simp [cumHist]
  | succ n ih =>
    rw [cumHist_succ, ih]
    by_cases hna : n = a
    · subst hna
      have hnb : ¬ b < n + 1 ↔ ¬ b < n := by
        constructor <;> intro h <;> omega
      split_ifs <;> omega
    · by_cases hnb : n = b
      · subst hnb
        split_ifs <;> omega
      · rw [hzero n hna hnb]
        split_ifs <;> omega

theorem csum_two_support (hist : ℕ → ℕ) (a b : ℕ) (hab : a ≠ b)
    (hzero : ∀ v, v ≠ a → v ≠ b → hist v = 0) :
    ∀ k, csumHist hist k =
      (if a < k then a * hist a else 0) + (if b < k then b * hist b else 0) := by
  intro k
  induction k with
  | zero => simp [csumHist]
  | succ n ih =>
    rw [csumHist_succ, ih]
    by_cases hna : n = a
    · subst hna
      split_ifs <;> omega
    · by_cases hnb : n = b
      · subst hnb
        split_ifs <;> omega
      · rw [hzero n hna hnb, Nat.mul_zero]
        split_ifs <;> omega

/-- Values with non-zero histogram count come from `hbin`-constrained
pixels. -/
theorem histogram_support (img : Img)
    (hpx : ∀ px ∈ img.rows.flatten, isByteLum px) (v : ℕ)
    (hv : histogram img v ≠ 0) : ∃ px ∈ img.rows.flatten, px = Px.lum v := by
  unfold histogram at hv
  have hmem : v ∈ lumVals img := by
    by_contra hnot
    exact hv (List.count_eq_zero.2 hnot)
  unfold lumVals at hmem
  rw [List.mem_filterMap] at hmem
  obtain ⟨px, hpmem, hfx⟩ := hmem
  refine ⟨px, hpmem, ?_⟩
  cases px with
  | lum u =>
    simp only [Option.some.injEq] at hfx
    rw [hfx]
  | rgb r g b => simp at hfx
  | rgba r g b a => simp at hfx
  | pal i => simp at hfx

/-- Histogram counts vanish at and above 256 for well-formed images. -/
theorem histogram_zero_above (img : Img)
    (hpx : ∀ px ∈ img.rows.flatten, isByteLum px) (v : ℕ) (hv : 256 ≤ v) :
    histogram img v = 0 := by
  unfold histogram
  rw [List.count_eq_zero]
  intro hmem
  exact absurd (lumVals_lt img hpx v hmem) (by omega)

/-- On a histogram concentrated on two luminances `a < b`, the scan keeps
the first of the tied candidate thresholds `[a, b)`, returning exactly the
lower peak `a`. -/
theorem otsu_two_spike (img : Img) (hwf : LWf img) (a b : ℕ)
    (hab : a < b) (hb256 : b < 256)
    (ha_pos : 0 < histogram img a) (hb_pos : 0 < histogram img b)
    (hsupp : ∀ v, v < 256 → histogram img v ≠ 0 → v = a ∨ v = b) :
    otsuThreshold img = a := by
  have hpx := hwf.2.2
  have hzero : ∀ v, v ≠ a → v ≠ b → histogram img v = 0 := by
    intro v hva hvb
    by_cases h256 : v < 256
    · by_contra h
      rcases hsupp v h256 h with h' | h'
      · exact hva h'
      · exact hvb h'
    · exact histogram_zero_above img hpx v (by omega)
  have hcum := cum_two_support (histogram img) a b (by omega) hzero
  have hcsum := csum_two_support (histogram img) a b (by omega) hzero
  have htot := LWf_total img hwf
  have htotval : img.w * img.h = histogram img a + histogram img b := by
    rw [htot, hcum 256, if_pos (by omega), if_pos (by omega)]
  -- candidate characterization
  have hcand : ∀ t, isCand (histogram img) (img.w * img.h) t ↔
      (a ≤ t ∧ t < b) := by
    intro t
    constructor
    · rintro ⟨hpos, hlt⟩
      rw [hcum (t + 1)] at hpos hlt
      constructor
      · by_contra hc
        rw [if_neg (by omega), if_neg (by omega)] at hpos
        exact absurd hpos (by omega)
      · by_contra hc
        rw [if_pos (by omega), if_pos (by omega), htotval] at hlt
        exact absurd hlt (by omega)
    · rintro ⟨h1, h2⟩
      refine ⟨?_, ?_⟩
      · rw [hcum (t + 1), if_pos (by omega), if_neg (by omega)]
        omega
      · rw [hcum (t + 1), if_pos (by omega), if_neg (by omega), htotval]
        omega
  -- the double-precision score is the same at every candidate: the scan
  -- computes it from the same prefix sums
  have hvar : ∀ t, a ≤ t → t < b →
      floatOtsuVar (histogram img) (img.w * img.h) t =
        floatOtsuVar (histogram img) (img.w * img.h) a := by
    intro t h1 h2
    rw [floatOtsuVar_def, floatOtsuVar_def, floatVarDy_unfold, floatVarDy_unfold,
      hcum (t + 1), hcum (a + 1), hcsum (t + 1), hcsum (a + 1)]
    rw [if_pos (by omega), if_neg (by omega), if_pos (by omega),
      if_neg (by omega), if_pos (by omega), if_neg (by omega),
      if_pos (by omega), if_neg (by omega)]
  have hcanda : isCand (histogram img) (img.w * img.h) a :=
    (hcand a).2 ⟨le_refl a, hab⟩
  rcases otsuThreshold_spec img hwf with ⟨hno, _⟩ | ⟨hcr, hr256, _, hstrict⟩
  · exact absurd hcanda (hno a (by omega))
  · obtain ⟨hra, hrb⟩ := (hcand _).1 hcr
    rcases Nat.eq_or_lt_of_le hra with heq | hgt
    · exact heq.symm
    · exfalso
      have hlt := hstrict a hgt hcanda
      rw [hvar _ hra hrb] at hlt
      exact lt_irrefl _ hlt

/-- On a histogram concentrated on a single luminance (or empty), no
threshold splits the pixels and the scan returns the 128 default. -/
theorem otsu_single_spike (img : Img) (hwf : LWf img) (c : ℕ) (hc : c < 256)
    (hsupp : ∀ v, v < 256 → histogram img v ≠ 0 → v = c) :
    otsuThreshold img = 128 := by
  have hpx := hwf.2.2
  have hzero : ∀ v, v ≠ c → histogram img v = 0 := by
    intro v hvc
    by_cases h256 : v < 256
    · by_contra h
      exact hvc (hsupp v h256 h)
    · exact histogram_zero_above img hpx v (by omega)
  -- use the two-support formula with a second value of zero mass
  set b : ℕ := if c = 0 then 1 else 0 with hb
  have hcb : c ≠ b := by
    rw [hb]
    split
    · omega
    · omega
  have hzero2 : ∀ v, v ≠ c → v ≠ b → histogram img v = 0 :=
    fun v hvc _ => hzero v hvc
  have hcum := cum_two_support (histogram img) c b hcb hzero2
  have htot := LWf_total img hwf
  have hbz : histogram img b = 0 := hzero b (fun h => hcb h.symm)
  have hnoc : ∀ t, t < 256 → ¬ isCand (histogram img) (img.w * img.h) t := by
    intro t ht hcnd
    obtain ⟨hpos, hlt⟩ := hcnd
    rw [hcum (t + 1), hbz] at hpos hlt
    simp only [ite_self] at hpos hlt
    have htotc : img.w * img.h = histogram img c := by
      rw [htot, hcum 256, hbz, if_pos hc]
      simp
    rw [htotc] at hlt
    by_cases hct : c < t + 1
    · rw [if_pos hct] at hlt
      omega
    · rw [if_neg hct] at hpos
      omega
  rcases otsuThreshold_spec img hwf with ⟨_, hr⟩ | ⟨hcr, hr256, _, _⟩
  · exact hr
  · exact absurd hcr (hnoc _ hr256)

/-- Claim C3, as stated, is false at a concrete input: on the four-pixel
image with luminances 0, 1, 1, 2, the candidate thresholds 0 and 1 have
exactly equal between-class variances (both `16 / 3`), so the lowest
threshold attaining the maximum variance is 0 — but the code compares the
computed double-precision scores, which round to different doubles
(0x1.5555555555555p+2 at threshold 0 and 0x1.5555555555556p+2 at
threshold 1), and the strictly-greater score at 1 wins: `_otsu_threshold`
returns 1, not 0. -/
theorem C3_counterexample :
    otsuThreshold (⟨.L, 4, 1, [], [[.lum 0, .lum 1, .lum 1, .lum 2]]⟩ : Img) = 1 ∧
    isCand (histogram (⟨.L, 4, 1, [], [[.lum 0, .lum 1, .lum 1, .lum 2]]⟩ : Img))
      4 0 ∧
    isCand (histogram (⟨.L, 4, 1, [], [[.lum 0, .lum 1, .lum 1, .lum 2]]⟩ : Img))
      4 1 ∧
    otsuVar (histogram (⟨.L, 4, 1, [], [[.lum 0, .lum 1, .lum 1, .lum 2]]⟩ : Img))
        4 0 =
      otsuVar (histogram (⟨.L, 4, 1, [], [[.lum 0, .lum 1, .lum 1, .lum 2]]⟩ : Img))
        4 1 := by
  refine ⟨by decide, by decide, by decide, ?_⟩
  have h1 : cumHist (histogram
      (⟨.L, 4, 1, [], [[.lum 0, .lum 1, .lum 1, .lum 2]]⟩ : Img)) (0 + 1) = 1 := by
    decide
  have h2 : cumHist (histogram
      (⟨.L, 4, 1, [], [[.lum 0, .lum 1, .lum 1, .lum 2]]⟩ : Img)) (1 + 1) = 3 := by
    decide
  have h3 : csumHist (histogram
      (⟨.L, 4, 1, [], [[.lum 0, .lum 1, .lum 1, .lum 2]]⟩ : Img)) (0 + 1) = 0 := by
    decide
  have h4 : csumHist (histogram
      (⟨.L, 4, 1, [], [[.lum 0, .lum 1, .lum 1, .lum 2]]⟩ : Img)) (1 + 1) = 2 := by
    decide
  have h5 : csumHist (histogram
      (⟨.L, 4, 1, [], [[.lum 0, .lum 1, .lum 1, .lum 2]]⟩ : Img)) 256 = 4 := by
    decide
  rw [otsuVar_unfold, otsuVar_unfold, h1, h2, h3, h4, h5]
  norm_num

/-- Claim C3 (amended): for every (well-formed) grayscale image,
`_otsu_threshold` returns the lowest threshold in `[0, 255]` attaining the
maximum of the double-precision scores it computes for
`weight_bg * weight_fg * (mean_bg - mean_fg) ** 2` over all candidate
thresholds splitting the pixels into two non-empty classes (ties of the
computed doubles keep the earliest `t`, since only a strictly greater
score replaces the incumbent), and returns 128 when the image is
perfectly uniform (no candidate threshold exists).  With the variance
read as its exact real value the statement fails: rounding can split
exact ties, as in the counterexample above. -/
theorem C3_otsu_least_argmax (img : Img) (hwf : LWf img) :
    ((∀ t, t < 256 → ¬ isCand (histogram img) (img.w * img.h) t) →
      otsuThreshold img = 128) ∧
    ((∃ t₀, t₀ < 256 ∧ isCand (histogram img) (img.w * img.h) t₀) →
      isCand (histogram img) (img.w * img.h) (otsuThreshold img) ∧
      otsuThreshold img < 256 ∧
      (∀ t, t < 256 → isCand (histogram img) (img.w * img.h) t →
        floatOtsuVar (histogram img) (img.w * img.h) t ≤
          floatOtsuVar (histogram img) (img.w * img.h) (otsuThreshold img)) ∧
      (∀ t, t < otsuThreshold img →
        isCand (histogram img) (img.w * img.h) t →
        floatOtsuVar (histogram img) (img.w * img.h) t <
          floatOtsuVar (histogram img) (img.w * img.h) (otsuThreshold img))) := by
  have h := otsuThreshold_spec img hwf
  constructor
  · intro hno
    rcases h with ⟨_, hr⟩ | ⟨hc, hlt, _, _⟩
    · exact hr
    · exact absurd hc (hno _ hlt)
  · rintro ⟨t₀, ht₀, hct₀⟩
    rcases h with ⟨hno, _⟩ | hgood
    · exact absurd hct₀ (hno t₀ ht₀)
    · exact hgood

/-- Witness for C3 at the two-pixel image with luminances 10 and 200. -/
theorem C3_otsu_least_argmax_witness :
    isCand (histogram (⟨.L, 2, 1, [], [[.lum 10, .lum 200]]⟩ : Img)) 2
        (otsuThreshold (⟨.L, 2, 1, [], [[.lum 10, .lum 200]]⟩ : Img)) ∧
      otsuThreshold (⟨.L, 2, 1, [], [[.lum 10, .lum 200]]⟩ : Img) < 256 := by
  have h := (C3_otsu_least_argmax (⟨.L, 2, 1, [], [[.lum 10, .lum 200]]⟩ : Img)
      (by decide)).2 ⟨10, by norm_num, by decide⟩
  exact ⟨h.1, h.2.1⟩

/-- Claim C8, as stated, fails at a concrete input: for the two-pixel image
with unit spikes at 100 and 200 (a bimodal histogram with maximally
separated peaks), every threshold in `[100, 199]` ties for the maximum
between-class variance, the strict-greater update keeps the earliest, and
the computed threshold is 100 — equal to the lower peak, not strictly
between the peaks. -/
theorem C8_counterexample :
    otsuThreshold (⟨.L, 2, 1, [], [[.lum 100, .lum 200]]⟩ : Img) = 100 ∧
    ¬(100 < otsuThreshold (⟨.L, 2, 1, [], [[.lum 100, .lum 200]]⟩ : Img) ∧
      otsuThreshold (⟨.L, 2, 1, [], [[.lum 100, .lum 200]]⟩ : Img) < 200) := by
  have h := otsu_two_spike (⟨.L, 2, 1, [], [[.lum 100, .lum 200]]⟩ : Img)
    (by decide) 100 200 (by norm_num) (by norm_num) (by decide) (by decide)
    (by decide)
  refine ⟨h, fun hc => ?_⟩
  rw [h] at hc
  exact absurd hc.1 (by norm_num)

/-- Claim C8 (amended): for a bimodal histogram concentrated at two peaks
`a < b`, the computed threshold lies in the gap `[a, b)` — by the
earliest-tie rule it equals the lower peak `a`, hence `a ≤ t* < b`, but it
is not strictly between the peaks. -/
theorem C8_bimodal_threshold_in_gap (img : Img) (hwf : LWf img) (a b : ℕ)
    (hab : a < b) (hb256 : b < 256)
    (ha : 0 < histogram img a) (hb : 0 < histogram img b)
    (hsupp : ∀ v, v < 256 → histogram img v ≠ 0 → v = a ∨ v = b) :
    otsuThreshold img = a ∧ a ≤ otsuThreshold img ∧ otsuThreshold img < b := by
  have h := otsu_two_spike img hwf a b hab hb256 ha hb hsupp
  exact ⟨h, le_of_eq h.symm, by rw [h]; exact hab⟩

/-- Witness for C8 at the two-pixel image with luminances 50 and 220. -/
theorem C8_bimodal_threshold_in_gap_witness :
    otsuThreshold (⟨.L, 2, 1, [], [[.lum 50, .lum 220]]⟩ : Img) = 50 ∧
    50 ≤ otsuThreshold (⟨.L, 2, 1, [], [[.lum 50, .lum 220]]⟩ : Img) ∧
    otsuThreshold (⟨.L, 2, 1, [], [[.lum 50, .lum 220]]⟩ : Img) < 220 :=
  C8_bimodal_threshold_in_gap (⟨.L, 2, 1, [], [[.lum 50, .lum 220]]⟩ : Img)
    (by decide) 50 220 (by norm_num) (by norm_num) (by decide) (by decide)
    (by decide)

theorem map_rows_eq_self (f : Px → Px) :
    ∀ (L : List (List Px)), (∀ px ∈ L.flatten, f px = px) →
      L.map (List.map f) = L := by
  intro L
  induction L with
  | nil => intro _; rfl
  | cons r rs ih =>
    intro h
    have hr : r.map f = r := by
      have hmem : ∀ px ∈ r, f px = px := fun px hp =>
        h px (by simp [hp])
      calc r.map f = r.map id := List.map_congr_left hmem
        _ = r := List.map_id r
    simp only [List.map_cons]
    rw [hr, ih (fun px hp => h px (by simp [hp]))]

theorem mapPx_eq_self (f : Px → Px) (img : Img)
    (h : ∀ px ∈ img.rows.flatten, f px = px) : mapPx f img = img := by
  unfold mapPx
  rw [map_rows_eq_self f img.rows h]

/-- Claim C4: binarization (step 6) is the identity on every single-channel
image whose pixels are all 0 or 255, hence applying step 6 twice to an
already-binary image yields the same image as applying it once.  On a
binary image the Otsu scan returns threshold 0 (both values present: all
candidate thresholds tie and the earliest wins) or the 128 default
(uniform), and in either case the point mapping fixes 0 and 255. -/
theorem C4_binarization_idempotent (img : Img) (hmode : img.mode = Mode.L)
    (hwf : LWf img)
    (hbin : ∀ px ∈ img.rows.flatten, px = Px.lum 0 ∨ px = Px.lum 255) :
    step6binarize img = img ∧
    step6binarize (step6binarize img) = step6binarize img := by
  have hsupp01 : ∀ v, v < 256 → histogram img v ≠ 0 → v = 0 ∨ v = 255 := by
    intro v hv hnz
    obtain ⟨px, hmem, hpx⟩ := histogram_support img hwf.2.2 v hnz
    rcases hbin px hmem with h0 | h255
    · rw [hpx] at h0
      simp only [Px.lum.injEq] at h0
      exact Or.inl h0
    · rw [hpx] at h255
      simp only [Px.lum.injEq] at h255
      exact Or.inr h255
  have hT : otsuThreshold img = 0 ∨ otsuThreshold img = 128 := by
    by_cases h0 : 0 < histogram img 0
    · by_cases h255 : 0 < histogram img 255
      · exact Or.inl (otsu_two_spike img hwf 0 255 (by omega) (by omega)
          h0 h255 hsupp01)
      · refine Or.inr (otsu_single_spike img hwf 0 (by omega) ?_)
        intro v hv hnz
        rcases hsupp01 v hv hnz with h | h
        · exact h
        · subst h
          omega
    · refine Or.inr (otsu_single_spike img hwf 255 (by omega) ?_)
      intro v hv hnz
      rcases hsupp01 v hv hnz with h | h
      · subst h
        omega
      · exact h
  have hfix : step6binarize img = img := by
    unfold step6binarize
    have hmap : mapPx (fun px =>
        match px with
        | Px.lum v => Px.lum (if otsuThreshold img < v then 255 else 0)
        | other => other) img = img := by
      apply mapPx_eq_self
      intro px hpx
      rcases hbin px hpx with h | h <;> subst h <;>
        rcases hT with hT | hT <;> rw [hT] <;> decide
    rw [hmap, ← hmode]
  exact ⟨hfix, by rw [hfix]; exact hfix⟩

/-- Witness for C4 at the binary two-pixel image with luminances 0 and
255. -/
theorem C4_binarization_idempotent_witness :
    step6binarize (⟨.L, 2, 1, [], [[.lum 0, .lum 255]]⟩ : Img) =
      (⟨.L, 2, 1, [], [[.lum 0, .lum 255]]⟩ : Img) ∧
    step6binarize (step6binarize (⟨.L, 2, 1, [], [[.lum 0, .lum 255]]⟩ : Img)) =
      step6binarize (⟨.L, 2, 1, [], [[.lum 0, .lum 255]]⟩ : Img) :=
  C4_binarization_idempotent (⟨.L, 2, 1, [], [[.lum 0, .lum 255]]⟩ : Img)
    rfl (by decide) (by decide)

end MoleculeDetector
